import Mathlib

/-! Shallow embedding of the word-search puzzle core: the Rabin-Karp
matcher (rabin_karp.py), the grid generator and verifier (grid.py), and
the selection path resolver (game.py).  Python strings are modelled as
lists of characters, the mutable 2D letter grid as a total function from
integer coordinates to characters, and the ambient random source as an
explicit stream of natural numbers consumed one draw at a time.  Fallible
calls (ValueError raised by random.sample / random.randint) are modelled
with Except. -/

/-- Grid coordinates, row then column, as (unbounded) integers. -/
abbrev Pos := Int × Int

/-- The empty-cell marker used during grid construction. -/
def emptyCell : Char := ' '

/-- Rabin-Karp matcher parameters: hash base and prime modulus. -/
structure RabinKarp where
  base : Int := 256
  prime : Int := 101

/-- Code point of a character, modelling Python ord. -/
def chOrd (c : Char) : Int := (c.toNat : Int)

/-- The loop body of RabinKarp._hash. -/
def hstep (rk : RabinKarp) (h : Int) (c : Char) : Int :=
  (h * rk.base + chOrd c) % rk.prime

/-- RabinKarp._hash: hash of the first `length` characters of `text`. -/
def RabinKarp.hash_val (rk : RabinKarp) (text : List Char) (length : Nat) : Int :=
  (text.take length).foldl (hstep rk) 0

/-- RabinKarp._rolling_hash: drop `old_char`, append `new_char`. -/
def RabinKarp.rolling_hash (rk : RabinKarp) (old_hash : Int)
    (old_char new_char : Char) (length : Nat) : Int :=
  let h := rk.base ^ (length - 1) % rk.prime
  let h1 := (old_hash - chOrd old_char * h) % rk.prime
  let h2 := (h1 * rk.base + chOrd new_char) % rk.prime
  (h2 + rk.prime) % rk.prime

/-- The rolling-window for-loop of RabinKarp.search: `i` is the current
window start, the first `Nat` argument the number of iterations left,
the `Int` argument the hash of the previous window. -/
def RabinKarp.searchLoop (rk : RabinKarp) (pattern text : List Char) (m : Nat)
    (pattern_hash : Int) (i : Nat) : Nat → Int → List Nat
  | 0, _ => []
  | left + 1, text_hash =>
    let th := rk.rolling_hash text_hash (text.getD (i - 1) emptyCell)
      (text.getD (i + m - 1) emptyCell) m
    (if pattern_hash = th ∧ (text.drop i).take m = pattern then [i] else []) ++
      rk.searchLoop pattern text m pattern_hash (i + 1) left th

/-- RabinKarp.search: all start indices where `pattern` occurs in `text`. -/
def RabinKarp.search (rk : RabinKarp) (pattern text : List Char) : List Nat :=
  if pattern = [] ∨ text = [] ∨ text.length < pattern.length then []
  else
    let pattern_len := pattern.length
    let pattern_hash := rk.hash_val pattern pattern_len
    let text_hash := rk.hash_val text pattern_len
    (if pattern_hash = text_hash ∧ text.take pattern_len = pattern then [0] else []) ++
      rk.searchLoop pattern text pattern_len pattern_hash 1
        (text.length - pattern_len) text_hash

/-- RabinKarp.contains_pattern. -/
def RabinKarp.contains_pattern (rk : RabinKarp) (pattern text : List Char) : Bool :=
  decide (0 < (rk.search pattern text).length)

/-- The denylist of RabinKarp.contains_unwanted_pattern. -/
def unwantedPatterns : List (List Char) :=
  [['T','H','E'], ['A','N','D'], ['F','O','R'], ['A','R','E'],
   ['B','U','T'], ['N','O','T'], ['Y','O','U'], ['A','L','L']]

/-- RabinKarp.contains_unwanted_pattern. -/
def RabinKarp.contains_unwanted_pattern (rk : RabinKarp) (text : List Char) : Bool :=
  unwantedPatterns.any fun p => rk.contains_pattern p (text.map Char.toUpper)

/-- The eight placement direction vectors of WordGrid. -/
def directions : List Pos :=
  [(0, 1), (1, 0), (1, 1), (0, -1), (-1, 0), (-1, -1), (1, -1), (-1, 1)]

/-- The WordGrid state: configuration plus the mutable grid buffer,
the placed-word list and the word-to-positions dictionary (modelled as
an association list whose most recent binding comes first, matching
dict assignment and lookup). -/
structure WordGrid where
  size : Int
  word_list : List (List Char)
  word_count : Int
  grid : Int → Int → Char
  placed_words : List (List Char)
  word_positions : List (List Char × List Pos)
  rabin_karp : RabinKarp

/-- WordGrid.__init__ (performs no validation of its arguments). -/
def WordGrid.new (size : Int) (word_list : List (List Char)) (word_count : Int) :
    WordGrid :=
  { size := size, word_list := word_list, word_count := word_count,
    grid := fun _ _ => emptyCell, placed_words := [], word_positions := [],
    rabin_karp := {} }

/-- Single-cell assignment grid[r][c] = ch. -/
def setCell (g : Int → Int → Char) (r c : Int) (ch : Char) : Int → Int → Char :=
  fun r2 c2 => if r2 = r ∧ c2 = c then ch else g r2 c2

/-- The sequential letter writes of WordGrid._place_word (also used for
the temporary grid of _creates_unwanted_overlap). -/
def writeWord (g : Int → Int → Char) (word : List Char) (r c dr dc : Int) :
    Int → Int → Char :=
  match word with
  | [] => g
  | ch :: rest => writeWord (setCell g r c ch) rest (r + dr) (c + dc) dr dc

/-- Bounds check 0 <= r < size and 0 <= c < size. -/
def inB (size r c : Int) : Prop := 0 ≤ r ∧ r < size ∧ 0 ≤ c ∧ c < size

instance (size r c : Int) : Decidable (inB size r c) := by
  unfold inB; infer_instance

/-- The directional while-loop of _check_direction_for_unwanted_words;
`fuel` bounds the walk.  A maximal run inside the grid along any of the
8 directions visits at most `size` cells, so callers pass `size.toNat`. -/
def extractRun (g : Int → Int → Char) (size : Int) :
    Nat → Int → Int → Int → Int → List Char
  | 0, _, _, _, _ => []
  | fuel + 1, r, c, dr, dc =>
    if inB size r c ∧ g r c ≠ emptyCell then
      g r c :: extractRun g size fuel (r + dr) (c + dc) dr dc
    else []

/-- WordGrid._check_direction_for_unwanted_words on an explicit grid. -/
def WordGrid.check_direction_for_unwanted_words (g : WordGrid)
    (grid : Int → Int → Char) (d : Pos) : Bool :=
  (List.range g.size.toNat).any fun sr =>
    (List.range g.size.toNat).any fun sc =>
      let text := extractRun grid g.size g.size.toNat (sr : Int) (sc : Int) d.1 d.2
      if text.length < 3 ∨ text ∈ g.placed_words then false
      else g.rabin_karp.contains_unwanted_pattern text

/-- WordGrid._creates_unwanted_overlap. -/
def WordGrid.creates_unwanted_overlap (g : WordGrid) (word : List Char)
    (start_row start_col : Int) (d : Pos) : Bool :=
  let temp := writeWord g.grid word start_row start_col d.1 d.2
  directions.any fun cd => g.check_direction_for_unwanted_words temp cd

/-- WordGrid._can_place_word. -/
def WordGrid.can_place_word (g : WordGrid) (word : List Char)
    (start_row start_col : Int) (d : Pos) : Bool :=
  let dr := d.1
  let dc := d.2
  let end_row := start_row + ((word.length : Int) - 1) * dr
  let end_col := start_col + ((word.length : Int) - 1) * dc
  if end_row < 0 ∨ g.size ≤ end_row ∨ end_col < 0 ∨ g.size ≤ end_col then false
  else if (List.range word.length).any (fun i =>
      decide (g.grid (start_row + (i : Int) * dr) (start_col + (i : Int) * dc) ≠ emptyCell ∧
        g.grid (start_row + (i : Int) * dr) (start_col + (i : Int) * dc) ≠ word.getD i emptyCell))
    then false
  else if g.creates_unwanted_overlap word start_row start_col d then false
  else true

/-- The coordinate list recorded by WordGrid._place_word. -/
def posList (len : Nat) (r c dr dc : Int) : List Pos :=
  (List.range len).map fun (i : Nat) => (r + (i : Int) * dr, c + (i : Int) * dc)

/-- WordGrid._place_word: commit the letters and record the positions
(dict assignment = new binding shadowing any older one). -/
def WordGrid.place_word (g : WordGrid) (word : List Char)
    (start_row start_col : Int) (d : Pos) : WordGrid :=
  { g with
    grid := writeWord g.grid word start_row start_col d.1 d.2,
    word_positions :=
      (word, posList word.length start_row start_col d.1 d.2) :: g.word_positions }

/-- First-match association-list lookup, modelling dict membership and
subscript on word_positions. -/
def lookupPos : List (List Char × List Pos) → List Char → Option (List Pos)
  | [], _ => none
  | e :: rest, w => if e.1 = w then some e.2 else lookupPos rest w

/-- Failures raised by the ambient random source (both are Python
ValueError). -/
inductive GenErr where
  | sampleSize
  | emptyRange

/-- random.randint(a, b): an integer in [a, b]; raises on an empty range. -/
def randint (ρ : Nat → Nat) (k : Nat) (a b : Int) : Except GenErr Int :=
  if a ≤ b then .ok (a + (ρ k : Int) % (b - a + 1)) else .error .emptyRange

/-- One draw-without-replacement per selected element. -/
def sampleAux (ρ : Nat → Nat) : Nat → List (List Char) → Nat → List (List Char)
  | _, _, 0 => []
  | k, pool, n + 1 =>
    let i := ρ k % pool.length
    pool.getD i [] :: sampleAux ρ (k + 1) (pool.eraseIdx i) n

/-- random.sample(population, n): n distinct positions chosen at random;
raises when n is negative or exceeds the population size. -/
def sample (ρ : Nat → Nat) (k : Nat) (pool : List (List Char)) (n : Int) :
    Except GenErr (List (List Char) × Nat) :=
  if n < 0 ∨ (pool.length : Int) < n then .error .sampleSize
  else .ok (sampleAux ρ k pool n.toNat, k + n.toNat)

/-- The retry budget of _place_words. -/
def maxAttempts : Nat := 100

/-- The per-word `while not placed and attempts < max_attempts` loop of
WordGrid._place_words: each attempt draws a row, a column and a
direction; returns the updated grid, whether the word was placed, and
the next random-stream index. -/
def WordGrid.attemptLoop (g : WordGrid) (word : List Char) (ρ : Nat → Nat) :
    Nat → Nat → Except GenErr (WordGrid × Bool × Nat)
  | k, 0 => .ok (g, false, k)
  | k, left + 1 =>
    match randint ρ k 0 (g.size - 1) with
    | .error e => .error e
    | .ok row =>
      match randint ρ (k + 1) 0 (g.size - 1) with
      | .error e => .error e
      | .ok col =>
        let d := directions.getD (ρ (k + 2) % directions.length) (0, 1)
        if g.can_place_word word row col d then
          .ok (g.place_word word row col d, true, k + 3)
        else g.attemptLoop word ρ (k + 3) left

/-- The per-selected-word loop of WordGrid._place_words: uppercase the
word, try to place it, and append it to placed_words on success. -/
def WordGrid.placeWordsLoop (g : WordGrid) (ρ : Nat → Nat) :
    List (List Char) → Nat → Except GenErr (WordGrid × Nat)
  | [], k => .ok (g, k)
  | w :: rest, k =>
    let wu := w.map Char.toUpper
    match g.attemptLoop wu ρ k maxAttempts with
    | .error e => .error e
    | .ok (g2, placed, k2) =>
      let g3 := if placed then { g2 with placed_words := g2.placed_words ++ [wu] }
        else g2
      g3.placeWordsLoop ρ rest k2

/-- WordGrid._place_words. -/
def WordGrid.place_words (g : WordGrid) (ρ : Nat → Nat) (k : Nat) :
    Except GenErr (WordGrid × Nat) :=
  match sample ρ k g.word_list (min g.word_count (g.word_list.length : Int)) with
  | .error e => .error e
  | .ok (selected, k2) => g.placeWordsLoop ρ selected k2

/-- WordGrid._initialize_grid: reset the buffer to empty markers and
clear the bookkeeping. -/
def WordGrid.init_grid (g : WordGrid) : WordGrid :=
  { g with grid := fun _ _ => emptyCell, placed_words := [], word_positions := [] }

/-- The alphabet used by _fill_empty_cells. -/
def lettersAZ : List Char :=
  ['A', 'B', 'C', 'D', 'E', 'F', 'G', 'H', 'I', 'J', 'K', 'L', 'M',
   'N', 'O', 'P', 'Q', 'R', 'S', 'T', 'U', 'V', 'W', 'X', 'Y', 'Z']

/-- Row-major enumeration of all grid cells. -/
def cellsList (size : Int) : List Pos :=
  (List.range size.toNat).flatMap fun (r : Nat) =>
    (List.range size.toNat).map fun (c : Nat) => ((r : Int), (c : Int))

/-- The cell loop of WordGrid._fill_empty_cells: one random draw per
still-empty cell. -/
def fillLoop (ρ : Nat → Nat) :
    (Int → Int → Char) → Nat → List Pos → (Int → Int → Char) × Nat
  | g, k, [] => (g, k)
  | g, k, p :: rest =>
    if g p.1 p.2 = emptyCell then
      fillLoop ρ (setCell g p.1 p.2 (lettersAZ.getD (ρ k % lettersAZ.length) 'A'))
        (k + 1) rest
    else fillLoop ρ g k rest

/-- WordGrid._fill_empty_cells. -/
def WordGrid.fill_empty_cells (g : WordGrid) (ρ : Nat → Nat) (k : Nat) :
    WordGrid × Nat :=
  let r := fillLoop ρ g.grid k (cellsList g.size)
  ({ g with grid := r.1 }, r.2)

/-- WordGrid.generate. -/
def WordGrid.generate (g : WordGrid) (ρ : Nat → Nat) : Except GenErr WordGrid :=
  match g.init_grid.place_words ρ 0 with
  | .error e => .error e
  | .ok (g2, k) => .ok (g2.fill_empty_cells ρ k).1

/-- The letter-collecting loop of is_word_at_positions: none as soon as
one coordinate is out of bounds. -/
def WordGrid.readWord (g : WordGrid) : List Pos → Option (List Char)
  | [] => some []
  | p :: rest =>
    if inB g.size p.1 p.2 then (g.readWord rest).map (g.grid p.1 p.2 :: ·)
    else none

/-- WordGrid._verify_word_positions. -/
def WordGrid.verify_word_positions (g : WordGrid) (word : List Char)
    (positions : List Pos) : Bool :=
  match lookupPos g.word_positions word with
  | none => false
  | some word_pos =>
    if positions.length = word_pos.length then
      decide (positions = word_pos) || decide (positions = word_pos.reverse)
    else false

/-- WordGrid.is_word_at_positions. -/
def WordGrid.is_word_at_positions (g : WordGrid) (positions : List Pos) : Bool :=
  if positions = [] then false
  else
    match g.readWord positions with
    | none => false
    | some word =>
      let wu := word.map Char.toUpper
      g.placed_words.any fun pw =>
        (!(g.rabin_karp.search pw wu).isEmpty ||
            !(g.rabin_karp.search pw wu.reverse).isEmpty) &&
          g.verify_word_positions pw positions

/-- WordGrid.get_letter. -/
def WordGrid.get_letter (g : WordGrid) (row col : Int) : Option Char :=
  if inB g.size row col then some (g.grid row col) else none

/-- WordGrid.get_word_list. -/
def WordGrid.get_word_list (g : WordGrid) : List (List Char) :=
  g.placed_words

/-- WordSearchGame._get_selection_path. -/
def getSelectionPath (selection_start selection_end : Option Pos) : List Pos :=
  match selection_start, selection_end with
  | some s, some e =>
    let row_diff := e.1 - s.1
    let col_diff := e.2 - s.2
    if row_diff ≠ 0 ∧ col_diff ≠ 0 ∧ |row_diff| ≠ |col_diff| then []
    else
      let steps := max |row_diff| |col_diff|
      if steps = 0 then [s]
      else
        let row_step : Int := if row_diff = 0 then 0 else if 0 < row_diff then 1 else -1
        let col_step : Int := if col_diff = 0 then 0 else if 0 < col_diff then 1 else -1
        (List.range (steps.toNat + 1)).map fun (i : Nat) =>
          (s.1 + (i : Int) * row_step, s.2 + (i : Int) * col_step)
  | _, _ => []

/-- The default matcher RabinKarp() used by WordGrid. -/
def rkDefault : RabinKarp := {}

/-- An uppercase ASCII letter A-Z. -/
def isUpperCh (c : Char) : Prop := 65 ≤ c.toNat ∧ c.toNat ≤ 90

/-- An ASCII letter. -/
def isLetterCh (c : Char) : Prop :=
  isUpperCh c ∨ (97 ≤ c.toNat ∧ c.toNat ≤ 122)

instance (c : Char) : Decidable (isUpperCh c) := by
  unfold isUpperCh; infer_instance

instance (c : Char) : Decidable (isLetterCh c) := by
  unfold isLetterCh; infer_instance

/-- Every grid cell holds the empty marker or an uppercase letter. -/
def CellsOk (g : WordGrid) : Prop :=
  ∀ r c : Int, g.grid r c = emptyCell ∨ isUpperCh (g.grid r c)

/-- A recorded word-positions binding is well formed: an uppercase word,
one coordinate per letter laid out linearly along one of the 8
directions, inside the grid, and the grid still spells the word there. -/
def EntryOk (g : WordGrid) (e : List Char × List Pos) : Prop :=
  (∀ ch ∈ e.1, isUpperCh ch) ∧
  e.2.length = e.1.length ∧
  (∃ d ∈ directions, ∃ sr sc : Int, e.2 = posList e.1.length sr sc d.1 d.2) ∧
  (∀ p ∈ e.2, inB g.size p.1 p.2) ∧
  e.2.map (fun p => g.grid p.1 p.2) = e.1

/-- All bindings are well formed and every placed word is a nonempty
uppercase word with a recorded binding. -/
def PlacedOk (g : WordGrid) : Prop :=
  (∀ e ∈ g.word_positions, EntryOk g e) ∧
  (∀ w ∈ g.placed_words, w ≠ [] ∧ (∀ ch ∈ w, isUpperCh ch) ∧
    ∃ ps, lookupPos g.word_positions w = some ps)

/-- A fixed random stream for concrete runs. -/
def rho0 : Nat → Nat := fun _ => 0

/-- A concrete generated 3x3 grid containing the single word CAT. -/
def gDemo : WordGrid :=
  ((WordGrid.new 3 [['C', 'A', 'T']] 1).generate rho0).toOption.getD
    (WordGrid.new 3 [['C', 'A', 'T']] 1)

/-! Hash arithmetic: the fold of hash_val agrees, modulo the prime, with
the polynomial value of the character list, and the rolling update moves
a fixed-length window one character forward. -/

/-- Polynomial value of a character list in the hash base. -/
def polyVal (b : Int) : List Char → Int
  | [] => 0
  | c :: w => chOrd c * b ^ w.length + polyVal b w

lemma emod_modeq_self (p x : Int) : Int.ModEq p (x % p) x :=
  Int.emod_emod_of_dvd x dvd_rfl

lemma add_self_emod (a p : Int) : (a + p) % p = a % p := by
  have h := Int.add_mul_emod_self_left a p 1
  rwa [mul_one] at h

lemma foldl_hstep_modeq (rk : RabinKarp) (w : List Char) :
    ∀ h : Int,
      Int.ModEq rk.prime (w.foldl (hstep rk) h)
        (h * rk.base ^ w.length + polyVal rk.base w) := by
  induction w with
  | nil =>
    intro h
    simp [polyVal]
  | cons c w ih =>
    intro h
    have h1 : Int.ModEq rk.prime (hstep rk h c) (h * rk.base + chOrd c) :=
      emod_modeq_self _ _
    calc List.foldl (hstep rk) h (c :: w)
        = w.foldl (hstep rk) (hstep rk h c) := by simp
      _ ≡ hstep rk h c * rk.base ^ w.length + polyVal rk.base w [ZMOD rk.prime] := ih _
      _ ≡ (h * rk.base + chOrd c) * rk.base ^ w.length + polyVal rk.base w
          [ZMOD rk.prime] := Int.ModEq.add (Int.ModEq.mul_right _ h1) (Int.ModEq.refl _)
      _ = h * rk.base ^ (c :: w).length + polyVal rk.base (c :: w) := by
          simp [polyVal, List.length_cons]; ring

lemma foldl_hstep_bounds (rk : RabinKarp) (hp : 0 < rk.prime) (w : List Char) :
    ∀ h : Int, 0 ≤ h → h < rk.prime →
      0 ≤ w.foldl (hstep rk) h ∧ w.foldl (hstep rk) h < rk.prime := by
  induction w with
  | nil => intro h h0 h1; exact ⟨h0, h1⟩
  | cons c w ih =>
    intro h h0 h1
    simp only [List.foldl_cons]
    exact ih _ (Int.emod_nonneg _ (by omega)) (Int.emod_lt_of_pos _ hp)

lemma hash_val_nonneg (rk : RabinKarp) (hp : 0 < rk.prime) (t : List Char) (L : Nat) :
    0 ≤ rk.hash_val t L ∧ rk.hash_val t L < rk.prime :=
  foldl_hstep_bounds rk hp _ 0 le_rfl hp

lemma polyVal_concat (b : Int) (w : List Char) (c : Char) :
    polyVal b (w ++ [c]) = polyVal b w * b + chOrd c := by
  induction w with
  | nil => simp [polyVal]
  | cons c2 w ih => simp [polyVal, ih, List.length_append]; ring

/-- Core rolling-hash correctness: rolling the hash of `c0 :: w` by
dropping `c0` and appending `cL` yields the hash of `w ++ [cL]`. -/
lemma rolling_hash_concat (rk : RabinKarp) (hp : 0 < rk.prime)
    (c0 cL : Char) (w : List Char) :
    rk.rolling_hash (rk.hash_val (c0 :: w) (w.length + 1)) c0 cL (w.length + 1) =
      rk.hash_val (w ++ [cL]) (w.length + 1) := by
  have hne : rk.prime ≠ 0 := by omega
  have htake1 : (c0 :: w).take (w.length + 1) = c0 :: w :=
    List.take_of_length_le (by simp)
  have htake2 : (w ++ [cL]).take (w.length + 1) = w ++ [cL] :=
    List.take_of_length_le (by simp)
  have hA : Int.ModEq rk.prime (rk.hash_val (c0 :: w) (w.length + 1))
      (chOrd c0 * rk.base ^ w.length + polyVal rk.base w) := by
    unfold RabinKarp.hash_val
    rw [htake1]
    have h2 := foldl_hstep_modeq rk (c0 :: w) 0
    simpa [polyVal] using h2
  have hB : Int.ModEq rk.prime (rk.hash_val (w ++ [cL]) (w.length + 1))
      (polyVal rk.base w * rk.base + chOrd cL) := by
    unfold RabinKarp.hash_val
    rw [htake2]
    have h2 := foldl_hstep_modeq rk (w ++ [cL]) 0
    simpa [polyVal_concat] using h2
  have h1 : Int.ModEq rk.prime
      ((rk.hash_val (c0 :: w) (w.length + 1) -
          chOrd c0 * (rk.base ^ w.length % rk.prime)) % rk.prime)
      (polyVal rk.base w) := by
    refine (emod_modeq_self _ _).trans ?_
    have hsub := Int.ModEq.sub hA (Int.ModEq.mul_left (chOrd c0) (emod_modeq_self rk.prime (rk.base ^ w.length)))
    refine hsub.trans ?_
    have : chOrd c0 * rk.base ^ w.length + polyVal rk.base w -
        chOrd c0 * rk.base ^ w.length = polyVal rk.base w := by ring
    rw [this]
  have hL : Int.ModEq rk.prime
      (rk.rolling_hash (rk.hash_val (c0 :: w) (w.length + 1)) c0 cL (w.length + 1))
      (polyVal rk.base w * rk.base + chOrd cL) := by
    unfold RabinKarp.rolling_hash
    simp only [Nat.add_sub_cancel]
    refine Int.ModEq.trans ?_ (Int.ModEq.add (Int.ModEq.mul_right rk.base h1) (Int.ModEq.refl (chOrd cL)))
    have hzp : Int.ModEq rk.prime
        ((((rk.hash_val (c0 :: w) (w.length + 1) -
            chOrd c0 * (rk.base ^ w.length % rk.prime)) % rk.prime) * rk.base +
              chOrd cL) % rk.prime + rk.prime)
        ((((rk.hash_val (c0 :: w) (w.length + 1) -
            chOrd c0 * (rk.base ^ w.length % rk.prime)) % rk.prime) * rk.base +
              chOrd cL) % rk.prime) := by
      unfold Int.ModEq
      rw [add_self_emod]
    refine ((emod_modeq_self _ _).trans (hzp.trans ?_))
    exact emod_modeq_self _ _
  have hlhs0 : 0 ≤ rk.rolling_hash (rk.hash_val (c0 :: w) (w.length + 1)) c0 cL
      (w.length + 1) := Int.emod_nonneg _ hne
  have hlhs1 : rk.rolling_hash (rk.hash_val (c0 :: w) (w.length + 1)) c0 cL
      (w.length + 1) < rk.prime := Int.emod_lt_of_pos _ hp
  have hrhs := hash_val_nonneg rk hp (w ++ [cL]) (w.length + 1)
  have hfin : Int.ModEq rk.prime
      (rk.rolling_hash (rk.hash_val (c0 :: w) (w.length + 1)) c0 cL (w.length + 1))
      (rk.hash_val (w ++ [cL]) (w.length + 1)) := hL.trans hB.symm
  have heq : rk.rolling_hash (rk.hash_val (c0 :: w) (w.length + 1)) c0 cL
      (w.length + 1) % rk.prime = rk.hash_val (w ++ [cL]) (w.length + 1) % rk.prime := hfin
  rwa [Int.emod_eq_of_lt hlhs0 hlhs1, Int.emod_eq_of_lt hrhs.1 hrhs.2] at heq

/-- Any rolling-hash result is a canonical residue. -/
lemma rolling_hash_bounds (rk : RabinKarp) (hp : 0 < rk.prime) (oh : Int)
    (oc nc : Char) (L : Nat) :
    0 ≤ rk.rolling_hash oh oc nc L ∧ rk.rolling_hash oh oc nc L < rk.prime :=
  ⟨Int.emod_nonneg _ (by omega), Int.emod_lt_of_pos _ hp⟩

/-! Window decomposition: a length-L slice starting at i-1 is its first
character followed by a length-(L-1) slice at i, and the length-L slice
at i is that same middle part followed by the character at i+L-1. -/

lemma window_cons (t : List Char) (i L : Nat) (hL : 1 ≤ L) (hi : i < t.length) :
    (t.drop i).take L = t.get ⟨i, hi⟩ :: (t.drop (i + 1)).take (L - 1) := by
  obtain ⟨m, rfl⟩ : ∃ m, L = m + 1 := ⟨L - 1, by omega⟩
  rw [List.drop_eq_getElem_cons hi, List.take_succ_cons]
  simp

lemma window_concat (t : List Char) (i L : Nat) (hL : 1 ≤ L)
    (hiL : i + L ≤ t.length) :
    (t.drop i).take L =
      (t.drop i).take (L - 1) ++ [t.get ⟨i + L - 1, by omega⟩] := by
  obtain ⟨m, rfl⟩ : ∃ m, L = m + 1 := ⟨L - 1, by omega⟩
  rw [List.take_succ]
  have hm : m < (t.drop i).length := by
    rw [List.length_drop]; omega
  have hfin : (⟨i + (m + 1) - 1, by omega⟩ : Fin t.length) = ⟨i + m, by omega⟩ :=
    Fin.mk_eq_mk.mpr (by omega)
  rw [List.getElem?_eq_getElem hm, hfin]
  simp [List.get_eq_getElem, List.getElem_drop]

lemma window_length (t : List Char) (i L : Nat) (hiL : i + L ≤ t.length) :
    ((t.drop i).take L).length = L := by
  rw [List.length_take, List.length_drop]
  omega

lemma hash_val_take (rk : RabinKarp) (t : List Char) (L : Nat) :
    rk.hash_val (t.take L) L = rk.hash_val t L := by
  unfold RabinKarp.hash_val
  rw [List.take_take, min_self]

/-- Length-generalized form of rolling_hash_concat. -/
lemma rolling_hash_concat_len (rk : RabinKarp) (hp : 0 < rk.prime)
    (c0 cL : Char) (w : List Char) (L : Nat) (hL : w.length + 1 = L) :
    rk.rolling_hash (rk.hash_val (c0 :: w) L) c0 cL L =
      rk.hash_val (w ++ [cL]) L := by
  subst hL
  exact rolling_hash_concat rk hp c0 cL w

/-- The rolling update carries the window hash from start i-1 to start i. -/
lemma rolling_step (rk : RabinKarp) (hp : 0 < rk.prime) (t : List Char)
    (L i : Nat) (hL : 1 ≤ L) (hi : 1 ≤ i) (hiL : i + L ≤ t.length) :
    rk.rolling_hash (rk.hash_val ((t.drop (i - 1)).take L) L)
        (t.get ⟨i - 1, by omega⟩) (t.get ⟨i + L - 1, by omega⟩) L =
      rk.hash_val ((t.drop i).take L) L := by
  obtain ⟨j, rfl⟩ : ∃ j, i = j + 1 := ⟨i - 1, by omega⟩
  simp only [Nat.add_sub_cancel]
  have hcons : (t.drop j).take L =
      t.get ⟨j, by omega⟩ :: (t.drop (j + 1)).take (L - 1) :=
    window_cons t j L hL (by omega)
  have hcat : (t.drop (j + 1)).take L =
      (t.drop (j + 1)).take (L - 1) ++ [t.get ⟨j + 1 + L - 1, by omega⟩] :=
    window_concat t (j + 1) L hL hiL
  have hwlen : ((t.drop (j + 1)).take (L - 1)).length = L - 1 :=
    window_length t (j + 1) (L - 1) (by omega)
  have hL1 : ((t.drop (j + 1)).take (L - 1)).length + 1 = L := by omega
  rw [hcons, hcat]
  exact rolling_hash_concat_len rk hp _ _ _ L hL1

/-! Characterization of RabinKarp.search: since equal windows have equal
hashes, the hash comparison never filters out a true match, and every
reported index is confirmed by the character comparison. -/

lemma range_map_add_succ (left i : Nat) :
    (List.range (left + 1)).map (· + i) =
      i :: (List.range left).map (· + (i + 1)) := by
  rw [List.range_succ_eq_map]
  simp only [List.map_cons, Nat.zero_add, List.map_map]
  refine congrArg (i :: ·) (List.map_congr_left ?_)
  intro a _
  simp [Function.comp]
  omega

lemma searchLoop_eq (rk : RabinKarp) (hp : 0 < rk.prime)
    (pattern text : List Char) (hpat : pattern ≠ [])
    (hlen : pattern.length ≤ text.length) :
    ∀ (left i : Nat), 1 ≤ i → i + left = text.length - pattern.length + 1 →
      rk.searchLoop pattern text pattern.length
          (rk.hash_val pattern pattern.length) i left
          (rk.hash_val ((text.drop (i - 1)).take pattern.length)
            pattern.length) =
        ((List.range left).map (· + i)).filter
          (fun j => decide ((text.drop j).take pattern.length = pattern)) := by
  intro left
  induction left with
  | zero =>
    intro i h1 h2
    simp [RabinKarp.searchLoop]
  | succ left ih =>
    intro i h1 h2
    have hL : 1 ≤ pattern.length := List.length_pos.mpr hpat
    have hiL : i + pattern.length ≤ text.length := by omega
    have hg1 : text.getD (i - 1) emptyCell = text.get ⟨i - 1, by omega⟩ := by
      rw [List.getD_eq_getElem _ _ (by omega)]
      simp [List.get_eq_getElem]
    have hg2 : text.getD (i + pattern.length - 1) emptyCell =
        text.get ⟨i + pattern.length - 1, by omega⟩ := by
      rw [List.getD_eq_getElem _ _ (by omega)]
      simp [List.get_eq_getElem]
    have hth : rk.rolling_hash
        (rk.hash_val ((text.drop (i - 1)).take pattern.length) pattern.length)
        (text.getD (i - 1) emptyCell)
        (text.getD (i + pattern.length - 1) emptyCell) pattern.length =
        rk.hash_val ((text.drop i).take pattern.length) pattern.length := by
      rw [hg1, hg2]
      exact rolling_step rk hp text pattern.length i hL h1 hiL
    have ih2 := ih (i + 1) (by omega) (by omega)
    rw [Nat.add_sub_cancel] at ih2
    rw [range_map_add_succ]
    by_cases hwin : (text.drop i).take pattern.length = pattern
    · rw [RabinKarp.searchLoop]
      simp only [hth]
      rw [if_pos ⟨by rw [hwin], hwin⟩, ih2, List.filter_cons]
      simp [hwin]
    · rw [RabinKarp.searchLoop]
      simp only [hth]
      rw [if_neg (fun hc => hwin hc.2), ih2, List.filter_cons]
      simp [hwin]

lemma search_eq (rk : RabinKarp) (hp : 0 < rk.prime) (pattern text : List Char) :
    rk.search pattern text =
      if pattern = [] ∨ text = [] ∨ text.length < pattern.length then []
      else (List.range (text.length - pattern.length + 1)).filter
        (fun j => decide ((text.drop j).take pattern.length = pattern)) := by
  by_cases hdeg : pattern = [] ∨ text = [] ∨ text.length < pattern.length
  · rw [if_pos hdeg]
    unfold RabinKarp.search
    rw [if_pos hdeg]
  · rw [if_neg hdeg]
    push_neg at hdeg
    obtain ⟨h1, h2, h3⟩ := hdeg
    unfold RabinKarp.search
    rw [if_neg (by push_neg; exact ⟨h1, h2, h3⟩)]
    have hstart := searchLoop_eq rk hp pattern text h1 h3
      (text.length - pattern.length) 1 le_rfl (by omega)
    rw [Nat.sub_self, List.drop_zero, hash_val_take] at hstart
    have hr : List.range (text.length - pattern.length + 1) =
        0 :: (List.range (text.length - pattern.length)).map (· + 1) := by
      rw [List.range_succ_eq_map]
    show (if rk.hash_val pattern pattern.length = rk.hash_val text pattern.length ∧
          text.take pattern.length = pattern then [0] else []) ++
        rk.searchLoop pattern text pattern.length
          (rk.hash_val pattern pattern.length) 1
          (text.length - pattern.length) (rk.hash_val text pattern.length) =
      (List.range (text.length - pattern.length + 1)).filter
        (fun j => decide ((text.drop j).take pattern.length = pattern))
    rw [hstart, hr, List.filter_cons]
    by_cases hwin0 : text.take pattern.length = pattern
    · have h0 : rk.hash_val pattern pattern.length =
          rk.hash_val text pattern.length := by
        rw [← hash_val_take rk text pattern.length, hwin0]
      rw [if_pos ⟨h0, hwin0⟩]
      simp [List.drop_zero, hwin0]
    · rw [if_neg (fun hc => hwin0 hc.2)]
      simp [List.drop_zero, hwin0]

/-- Claim C3: for every pattern p and text t, RabinKarp.search(p, t)
returns, in increasing order, exactly the set of start indices i such
that t[i : i+len(p)] equals p; and it returns the empty list whenever p
is empty, t is empty, or len(p) > len(t). -/
theorem claim_C3 (rk : RabinKarp) (pattern text : List Char)
    (hp : 0 < rk.prime) :
    ((pattern = [] ∨ text = [] ∨ text.length < pattern.length) →
      rk.search pattern text = []) ∧
    List.Pairwise (· < ·) (rk.search pattern text) ∧
    (∀ i : Nat, i ∈ rk.search pattern text ↔
      pattern ≠ [] ∧ i + pattern.length ≤ text.length ∧
        (text.drop i).take pattern.length = pattern) := by
  refine ⟨?_, ?_, ?_⟩
  · intro h
    unfold RabinKarp.search
    rw [if_pos h]
  · rw [search_eq rk hp]
    by_cases hdeg : pattern = [] ∨ text = [] ∨ text.length < pattern.length
    · rw [if_pos hdeg]
      exact List.Pairwise.nil
    · rw [if_neg hdeg]
      exact List.Pairwise.filter _ (List.pairwise_lt_range _)
  · intro i
    rw [search_eq rk hp]
    by_cases hdeg : pattern = [] ∨ text = [] ∨ text.length < pattern.length
    · rw [if_pos hdeg]
      simp only [List.not_mem_nil, false_iff]
      rintro ⟨hne, hle, _⟩
      have hpos : 0 < pattern.length := List.length_pos.mpr hne
      rcases hdeg with h | h | h
      · exact hne h
      · rw [h, List.length_nil] at hle
        omega
      · omega
    · rw [if_neg hdeg]
      push_neg at hdeg
      obtain ⟨h1, h2, h3⟩ := hdeg
      rw [List.mem_filter, List.mem_range]
      simp only [decide_eq_true_eq]
      constructor
      · rintro ⟨hi, hw⟩
        exact ⟨h1, by omega, hw⟩
      · rintro ⟨_, hi, hw⟩
        exact ⟨by omega, hw⟩

/-- Witness for C3 at a concrete pattern and text. -/
theorem claim_C3_witness :
    (rkDefault.search ['A'] [] = []) ∧
    List.Pairwise (· < ·) (rkDefault.search ['A','B'] ['A','B','A','B']) ∧
    (2 ∈ rkDefault.search ['A','B'] ['A','B','A','B'] ↔
      (['A','B'] : List Char) ≠ [] ∧ 2 + 2 ≤ 4 ∧
        ((['A','B','A','B'] : List Char).drop 2).take 2 = ['A','B']) :=
  ⟨(claim_C3 rkDefault ['A'] [] (by decide)).1 (by simp),
   (claim_C3 rkDefault ['A','B'] ['A','B','A','B'] (by decide)).2.1,
   (claim_C3 rkDefault ['A','B'] ['A','B','A','B'] (by decide)).2.2 2⟩

/-- Claim C4: for every text t, window length L with 1 <= L <= len(t)
and position i with 1 <= i <= len(t)-L, the rolling-hash update applied
to the direct hash of window t[i-1 : i-1+L] (removing character t[i-1],
adding character t[i+L-1]) equals the direct hash of window t[i : i+L],
and the result is a non-negative residue modulo the prime. -/
theorem claim_C4 (rk : RabinKarp) (t : List Char) (L i : Nat)
    (hp : 0 < rk.prime) (hL1 : 1 ≤ L) (hLt : L ≤ t.length) (hi1 : 1 ≤ i)
    (hiN : i ≤ t.length - L) :
    rk.rolling_hash (rk.hash_val ((t.drop (i - 1)).take L) L)
        (t.get ⟨i - 1, by omega⟩) (t.get ⟨i + L - 1, by omega⟩) L =
      rk.hash_val ((t.drop i).take L) L ∧
    0 ≤ rk.rolling_hash (rk.hash_val ((t.drop (i - 1)).take L) L)
        (t.get ⟨i - 1, by omega⟩) (t.get ⟨i + L - 1, by omega⟩) L ∧
    rk.rolling_hash (rk.hash_val ((t.drop (i - 1)).take L) L)
        (t.get ⟨i - 1, by omega⟩) (t.get ⟨i + L - 1, by omega⟩) L < rk.prime := by
  have h := rolling_step rk hp t L i hL1 hi1 (by omega)
  have hb := rolling_hash_bounds rk hp
    (rk.hash_val ((t.drop (i - 1)).take L) L)
    (t.get ⟨i - 1, by omega⟩) (t.get ⟨i + L - 1, by omega⟩) L
  exact ⟨h, hb.1, hb.2⟩

/-- Witness for C4: rolling the hash of "AB" inside "ABC" yields the
hash of "BC", within [0, prime). -/
theorem claim_C4_witness :
    rkDefault.rolling_hash (rkDefault.hash_val ['A','B'] 2) 'A' 'C' 2 =
      rkDefault.hash_val ['B','C'] 2 ∧
    0 ≤ rkDefault.rolling_hash (rkDefault.hash_val ['A','B'] 2) 'A' 'C' 2 ∧
    rkDefault.rolling_hash (rkDefault.hash_val ['A','B'] 2) 'A' 'C' 2 <
      rkDefault.prime :=
  claim_C4 rkDefault ['A','B','C'] 2 1 (by decide) (by decide) (by decide)
    (by decide) (by decide)
/-! The selection path resolver. -/

lemma if_step_eq_sign (x : Int) :
    (if x = 0 then (0 : Int) else if 0 < x then 1 else -1) = x.sign := by
  rcases lt_trichotomy x 0 with h | h | h
  · rw [if_neg (by omega), if_neg (by omega)]
    exact (Int.sign_eq_neg_one_of_neg h).symm
  · simp [h]
  · rw [if_neg (by omega), if_pos h]
    exact (Int.sign_eq_one_of_pos h).symm

lemma sign_mul_steps (a b : Int) (hv : a = 0 ∨ b = 0 ∨ |a| = |b|) :
    ((max |a| |b|).toNat : Int) * a.sign = a := by
  have hnn : 0 ≤ max |a| |b| := le_trans (abs_nonneg a) (le_max_left _ _)
  rw [Int.toNat_of_nonneg hnn]
  rcases hv with h | h | h
  · simp [h]
  · rw [h, abs_zero, max_eq_left (abs_nonneg a), mul_comm]
    exact Int.sign_mul_abs a
  · rw [h, max_self, ← h, mul_comm]
    exact Int.sign_mul_abs a

lemma path_invalid (sr sc er ec : Int) (h1 : er - sr ≠ 0) (h2 : ec - sc ≠ 0)
    (h3 : |er - sr| ≠ |ec - sc|) :
    getSelectionPath (some (sr, sc)) (some (er, ec)) = [] := by
  show (if er - sr ≠ 0 ∧ ec - sc ≠ 0 ∧ |er - sr| ≠ |ec - sc| then ([] : List Pos)
    else _) = []
  rw [if_pos ⟨h1, h2, h3⟩]

lemma path_formula (sr sc er ec : Int)
    (hv : ¬(er - sr ≠ 0 ∧ ec - sc ≠ 0 ∧ |er - sr| ≠ |ec - sc|)) :
    getSelectionPath (some (sr, sc)) (some (er, ec)) =
      (List.range ((max |er - sr| |ec - sc|).toNat + 1)).map
        (fun (i : Nat) => (sr + (i : Int) * (er - sr).sign,
          sc + (i : Int) * (ec - sc).sign)) := by
  show (if er - sr ≠ 0 ∧ ec - sc ≠ 0 ∧ |er - sr| ≠ |ec - sc| then ([] : List Pos)
    else
      if max |er - sr| |ec - sc| = 0 then [((sr, sc) : Pos)]
      else
        (List.range ((max |er - sr| |ec - sc|).toNat + 1)).map fun (i : Nat) =>
          (sr + (i : Int) *
              (if er - sr = 0 then 0 else if 0 < er - sr then 1 else -1),
           sc + (i : Int) *
              (if ec - sc = 0 then 0 else if 0 < ec - sc then 1 else -1)))
    = _
  rw [if_neg hv]
  by_cases h0 : max |er - sr| |ec - sc| = 0
  · rw [if_pos h0]
    have ha : |er - sr| = 0 := by
      have h1 := le_max_left |er - sr| |ec - sc|
      have h2 := abs_nonneg (er - sr)
      omega
    have hb : |ec - sc| = 0 := by
      have h1 := le_max_right |er - sr| |ec - sc|
      have h2 := abs_nonneg (ec - sc)
      omega
    have ha2 : er - sr = 0 := abs_eq_zero.mp ha
    have hb2 : ec - sc = 0 := abs_eq_zero.mp hb
    rw [h0]
    simp [ha2, hb2, List.range_succ]
  · rw [if_neg h0]
    refine List.map_congr_left ?_
    intro i _
    rw [if_step_eq_sign, if_step_eq_sign]

/-- Claim C2: the path resolver returns [start] when start = end, an
empty path when both deltas are nonzero with unequal magnitudes, and
otherwise exactly max(|dr|,|dc|)+1 cells stepping by sign(dr), sign(dc)
from start to end inclusive. -/
theorem claim_C2 (sr sc er ec : Int) :
    (er = sr → ec = sc →
      getSelectionPath (some (sr, sc)) (some (er, ec)) = [(sr, sc)]) ∧
    (er - sr ≠ 0 → ec - sc ≠ 0 → |er - sr| ≠ |ec - sc| →
      getSelectionPath (some (sr, sc)) (some (er, ec)) = []) ∧
    ((er - sr = 0 ∨ ec - sc = 0 ∨ |er - sr| = |ec - sc|) →
      getSelectionPath (some (sr, sc)) (some (er, ec)) =
        (List.range ((max |er - sr| |ec - sc|).toNat + 1)).map
          (fun (i : Nat) => (sr + (i : Int) * (er - sr).sign,
            sc + (i : Int) * (ec - sc).sign)) ∧
      (getSelectionPath (some (sr, sc)) (some (er, ec))).length =
        (max |er - sr| |ec - sc|).toNat + 1 ∧
      (getSelectionPath (some (sr, sc)) (some (er, ec))).head? =
        some (sr, sc) ∧
      (getSelectionPath (some (sr, sc)) (some (er, ec))).getLast? =
        some (er, ec)) := by
  refine ⟨?_, ?_, ?_⟩
  · intro h1 h2
    rw [path_formula sr sc er ec (by rw [h1, h2]; simp)]
    rw [h1, h2]
    simp [List.range_succ]
  · intro h1 h2 h3
    exact path_invalid sr sc er ec h1 h2 h3
  · intro hv
    have hv2 : ¬(er - sr ≠ 0 ∧ ec - sc ≠ 0 ∧ |er - sr| ≠ |ec - sc|) := by
      tauto
    have hf := path_formula sr sc er ec hv2
    have hrow := sign_mul_steps (er - sr) (ec - sc) hv
    have hcol : ((max |er - sr| |ec - sc|).toNat : Int) * (ec - sc).sign =
        ec - sc := by
      have h2 := sign_mul_steps (ec - sc) (er - sr) (by tauto)
      rwa [max_comm |ec - sc| |er - sr|] at h2
    refine ⟨hf, ?_, ?_, ?_⟩
    · rw [hf]
      simp
    · rw [hf, List.range_succ_eq_map]
      simp
    · rw [hf, List.range_succ, List.map_append]
      simp only [List.map_cons, List.map_nil]
      rw [List.getLast?_concat]
      have heq : (sr + ((max |er - sr| |ec - sc|).toNat : Int) * (er - sr).sign,
          sc + ((max |er - sr| |ec - sc|).toNat : Int) * (ec - sc).sign) =
          ((er, ec) : Pos) := by
        rw [hrow, hcol]
        rw [Prod.mk.injEq]
        constructor <;> ring
      rw [heq]

/-- Witness for C2: a rejected non-aligned selection and the degenerate
single-cell selection. -/
theorem claim_C2_witness :
    getSelectionPath (some (0, 0)) (some (3, 2)) = [] ∧
    getSelectionPath (some (4, 4)) (some (4, 4)) = [(4, 4)] :=
  ⟨(claim_C2 0 0 3 2).2.1 (by decide) (by decide) (by decide),
   (claim_C2 4 4 4 4).1 rfl rfl⟩

/-! Character classes: upper-casing an ASCII letter gives A-Z, is the
identity on A-Z, and uppercase letters differ from the empty marker. -/

lemma toUpper_of_upper (c : Char) (h : isUpperCh c) : c.toUpper = c := by
  have hn : ¬(c.toNat ≥ 97 ∧ c.toNat ≤ 122) := by
    unfold isUpperCh at h
    omega
  show (if c.toNat ≥ 97 ∧ c.toNat ≤ 122 then Char.ofNat (c.toNat - 32) else c) = c
  rw [if_neg hn]

lemma toUpper_letter (c : Char) (h : isLetterCh c) : isUpperCh c.toUpper := by
  rcases h with h | h
  · rw [toUpper_of_upper c h]
    exact h
  · obtain ⟨h1, h2⟩ := h
    have heq : c.toUpper = Char.ofNat (c.toNat - 32) := by
      show (if c.toNat ≥ 97 ∧ c.toNat ≤ 122 then Char.ofNat (c.toNat - 32) else c)
        = _
      rw [if_pos ⟨h1, h2⟩]
    rw [heq]
    revert h1 h2
    generalize c.toNat = n
    intro h1 h2
    unfold isUpperCh
    interval_cases n <;> decide

lemma upper_ne_empty (c : Char) (h : isUpperCh c) : c ≠ emptyCell := by
  intro he
  rw [he] at h
  revert h
  decide

lemma map_toUpper_upper (w : List Char) (h : ∀ ch ∈ w, isUpperCh ch) :
    w.map Char.toUpper = w := by
  induction w with
  | nil => rfl
  | cons ch rest ih =>
    simp only [List.map_cons]
    rw [toUpper_of_upper ch (h ch (by simp)), ih (fun x hx => h x (by simp [hx]))]

lemma map_toUpper_letter (w : List Char) (h : ∀ ch ∈ w, isLetterCh ch) :
    ∀ ch ∈ w.map Char.toUpper, isUpperCh ch := by
  intro ch hch
  rw [List.mem_map] at hch
  obtain ⟨a, ha, rfl⟩ := hch
  exact toUpper_letter a (h a ha)

/-! Properties of the sequential letter writes: cells off the written
segment keep their value, the written cells read back the word when the
direction is nonzero, and cells that already held a letter compatible
with the write keep their value. -/

lemma shift_ne (r c dr dc : Int) (hd : dr ≠ 0 ∨ dc ≠ 0) (i : Nat) :
    ¬(r = r + ((i : Int) + 1) * dr ∧ c = c + ((i : Int) + 1) * dc) := by
  intro hc
  have h1 : ((i : Int) + 1) * dr = 0 := by linarith [hc.1]
  have h2 : ((i : Int) + 1) * dc = 0 := by linarith [hc.2]
  have hi : ((i : Int) + 1) ≠ 0 := by positivity
  rcases hd with hd | hd
  · rcases mul_eq_zero.mp h1 with h | h
    · exact hi h
    · exact hd h
  · rcases mul_eq_zero.mp h2 with h | h
    · exact hi h
    · exact hd h

lemma writeWord_frame (word : List Char) :
    ∀ (g : Int → Int → Char) (r c dr dc r2 c2 : Int),
      (∀ i : Nat, i < word.length →
        ¬(r2 = r + (i : Int) * dr ∧ c2 = c + (i : Int) * dc)) →
      writeWord g word r c dr dc r2 c2 = g r2 c2 := by
  induction word with
  | nil => intro g r c dr dc r2 c2 _; rfl
  | cons ch rest ih =>
    intro g r c dr dc r2 c2 h
    show writeWord (setCell g r c ch) rest (r + dr) (c + dc) dr dc r2 c2 = g r2 c2
    rw [ih (setCell g r c ch) (r + dr) (c + dc) dr dc r2 c2 ?_]
    · have h0 := h 0 (by simp)
      simp only [Nat.cast_zero, zero_mul, add_zero] at h0
      unfold setCell
      rw [if_neg h0]
    · intro i hi
      have hs := h (i + 1) (by simpa using Nat.succ_lt_succ hi)
      push_cast at hs ⊢
      intro hc
      refine hs ⟨?_, ?_⟩
      · linear_combination hc.1
      · linear_combination hc.2

lemma writeWord_read (word : List Char) :
    ∀ (g : Int → Int → Char) (r c dr dc : Int), (dr ≠ 0 ∨ dc ≠ 0) →
      ∀ (k : Nat) (hk : k < word.length),
        writeWord g word r c dr dc (r + (k : Int) * dr) (c + (k : Int) * dc) =
          word.get ⟨k, hk⟩ := by
  induction word with
  | nil => intro g r c dr dc _ k hk; simp at hk
  | cons ch rest ih =>
    intro g r c dr dc hd k hk
    show writeWord (setCell g r c ch) rest (r + dr) (c + dc) dr dc _ _ = _
    match k with
    | 0 =>
      simp only [Nat.cast_zero, zero_mul, add_zero]
      rw [writeWord_frame rest (setCell g r c ch) (r + dr) (c + dc) dr dc r c ?_]
      · unfold setCell
        rw [if_pos ⟨rfl, rfl⟩]
        rfl
      · intro i _
        intro hc
        refine shift_ne r c dr dc hd i ⟨?_, ?_⟩
        · linear_combination hc.1
        · linear_combination hc.2
    | k + 1 =>
      have hx : r + (((k : Nat) + 1 : Nat) : Int) * dr = (r + dr) + (k : Int) * dr := by
        push_cast
        ring
      have hy : c + (((k : Nat) + 1 : Nat) : Int) * dc = (c + dc) + (k : Int) * dc := by
        push_cast
        ring
      rw [hx, hy]
      rw [ih (setCell g r c ch) (r + dr) (c + dc) dr dc hd k
        (Nat.lt_of_succ_lt_succ hk)]
      rfl

lemma writeWord_mono (word : List Char) :
    ∀ (g : Int → Int → Char) (r c dr dc : Int), (dr ≠ 0 ∨ dc ≠ 0) →
      (∀ (i : Nat) (hi : i < word.length),
        g (r + (i : Int) * dr) (c + (i : Int) * dc) = emptyCell ∨
        g (r + (i : Int) * dr) (c + (i : Int) * dc) = word.get ⟨i, hi⟩) →
      ∀ r2 c2 : Int, g r2 c2 ≠ emptyCell →
        writeWord g word r c dr dc r2 c2 = g r2 c2 := by
  induction word with
  | nil => intro g r c dr dc _ _ r2 c2 _; rfl
  | cons ch rest ih =>
    intro g r c dr dc hd hok r2 c2 hne
    show writeWord (setCell g r c ch) rest (r + dr) (c + dc) dr dc r2 c2 = g r2 c2
    have hcell : ∀ a b : Int, ¬(a = r ∧ b = c) → setCell g r c ch a b = g a b := by
      intro a b hab
      unfold setCell
      rw [if_neg hab]
    by_cases hpt : r2 = r ∧ c2 = c
    · obtain ⟨h1, h2⟩ := hpt
      subst h1
      subst h2
      have h0 := hok 0 (by simp)
      simp only [Nat.cast_zero, zero_mul, add_zero] at h0
      have hch : g r2 c2 = ch := by
        rcases h0 with h0 | h0
        · exact absurd h0 hne
        · exact h0
      rw [writeWord_frame rest (setCell g r2 c2 ch) (r2 + dr) (c2 + dc)
        dr dc r2 c2 ?_]
      · unfold setCell
        rw [if_pos ⟨rfl, rfl⟩, hch]
      · intro i _
        intro hc
        refine shift_ne r2 c2 dr dc hd i ⟨?_, ?_⟩
        · linear_combination hc.1
        · linear_combination hc.2
    · have hg2 : setCell g r c ch r2 c2 = g r2 c2 := hcell r2 c2 hpt
      have hok2 : ∀ (i : Nat) (hi : i < rest.length),
          setCell g r c ch ((r + dr) + (i : Int) * dr) ((c + dc) + (i : Int) * dc)
            = emptyCell ∨
          setCell g r c ch ((r + dr) + (i : Int) * dr) ((c + dc) + (i : Int) * dc)
            = rest.get ⟨i, hi⟩ := by
        intro i hi
        have hne2 : ¬((r + dr) + (i : Int) * dr = r ∧
            (c + dc) + (i : Int) * dc = c) := by
          intro hc
          refine shift_ne r c dr dc hd i ⟨?_, ?_⟩
          · linear_combination - hc.1
          · linear_combination - hc.2
        rw [hcell _ _ hne2]
        have hs := hok (i + 1) (by simpa using Nat.succ_lt_succ hi)
        have hx : r + (((i : Nat) + 1 : Nat) : Int) * dr = (r + dr) + (i : Int) * dr := by
          push_cast
          ring
        have hy : c + (((i : Nat) + 1 : Nat) : Int) * dc = (c + dc) + (i : Int) * dc := by
          push_cast
          ring
        rw [hx, hy] at hs
        exact hs
      rw [ih (setCell g r c ch) (r + dr) (c + dc) dr dc hd hok2 r2 c2
        (by rw [hg2]; exact hne)]
      exact hg2

lemma writeWord_val (word : List Char) :
    ∀ (g : Int → Int → Char) (r c dr dc r2 c2 : Int),
      writeWord g word r c dr dc r2 c2 = g r2 c2 ∨
      writeWord g word r c dr dc r2 c2 ∈ word := by
  induction word with
  | nil => intro g r c dr dc r2 c2; left; rfl
  | cons ch rest ih =>
    intro g r c dr dc r2 c2
    have hw : writeWord g (ch :: rest) r c dr dc r2 c2 =
        writeWord (setCell g r c ch) rest (r + dr) (c + dc) dr dc r2 c2 := rfl
    rw [hw]
    rcases ih (setCell g r c ch) (r + dr) (c + dc) dr dc r2 c2 with h | h
    · rw [h]
      unfold setCell
      by_cases hpt : r2 = r ∧ c2 = c
      · rw [if_pos hpt]
        right
        exact List.mem_cons_self ch rest
      · rw [if_neg hpt]
        left
        rfl
    · right
      exact List.mem_cons_of_mem ch h

/-! Recorded position lists, placement precondition extraction, and the
fill pass. -/

lemma posList_length (len : Nat) (r c dr dc : Int) :
    (posList len r c dr dc).length = len := by
  simp [posList]

lemma posList_get (len : Nat) (r c dr dc : Int) (k : Nat)
    (hk : k < (posList len r c dr dc).length) :
    (posList len r c dr dc).get ⟨k, hk⟩ =
      (r + (k : Int) * dr, c + (k : Int) * dc) := by
  simp [posList]

lemma posList_mem (len : Nat) (r c dr dc : Int) (p : Pos) :
    p ∈ posList len r c dr dc ↔
      ∃ i : Nat, i < len ∧ p = (r + (i : Int) * dr, c + (i : Int) * dc) := by
  unfold posList
  rw [List.mem_map]
  constructor
  · rintro ⟨i, hi, rfl⟩
    exact ⟨i, List.mem_range.mp hi, rfl⟩
  · rintro ⟨i, hi, rfl⟩
    exact ⟨i, List.mem_range.mpr hi, rfl⟩

/-- The branch structure of _can_place_word, spelled out. -/
lemma can_place_word_eq (g : WordGrid) (word : List Char) (sr sc : Int)
    (d : Pos) :
    g.can_place_word word sr sc d =
      if sr + ((word.length : Int) - 1) * d.1 < 0 ∨
          g.size ≤ sr + ((word.length : Int) - 1) * d.1 ∨
          sc + ((word.length : Int) - 1) * d.2 < 0 ∨
          g.size ≤ sc + ((word.length : Int) - 1) * d.2 then false
      else if (List.range word.length).any (fun i =>
          decide (g.grid (sr + (i : Int) * d.1) (sc + (i : Int) * d.2) ≠ emptyCell ∧
            g.grid (sr + (i : Int) * d.1) (sc + (i : Int) * d.2) ≠
              word.getD i emptyCell)) then false
      else if g.creates_unwanted_overlap word sr sc d then false
      else true := rfl

lemma can_place_word_true (g : WordGrid) (word : List Char) (sr sc : Int)
    (d : Pos) (h : g.can_place_word word sr sc d = true) :
    (0 ≤ sr + ((word.length : Int) - 1) * d.1 ∧
      sr + ((word.length : Int) - 1) * d.1 < g.size ∧
      0 ≤ sc + ((word.length : Int) - 1) * d.2 ∧
      sc + ((word.length : Int) - 1) * d.2 < g.size) ∧
    (∀ i : Nat, i < word.length →
      g.grid (sr + (i : Int) * d.1) (sc + (i : Int) * d.2) = emptyCell ∨
      g.grid (sr + (i : Int) * d.1) (sc + (i : Int) * d.2) =
        word.getD i emptyCell) := by
  rw [can_place_word_eq] at h
  by_cases hb : sr + ((word.length : Int) - 1) * d.1 < 0 ∨
      g.size ≤ sr + ((word.length : Int) - 1) * d.1 ∨
      sc + ((word.length : Int) - 1) * d.2 < 0 ∨
      g.size ≤ sc + ((word.length : Int) - 1) * d.2
  · rw [if_pos hb] at h
    simp at h
  · rw [if_neg hb] at h
    push_neg at hb
    by_cases hc : (List.range word.length).any (fun i =>
        decide (g.grid (sr + (i : Int) * d.1) (sc + (i : Int) * d.2) ≠ emptyCell ∧
          g.grid (sr + (i : Int) * d.1) (sc + (i : Int) * d.2) ≠
            word.getD i emptyCell)) = true
    · rw [if_pos hc] at h
      simp at h
    · refine ⟨⟨hb.1, hb.2.1, hb.2.2.1, hb.2.2.2⟩, ?_⟩
      intro i hi
      by_contra hcon
      push_neg at hcon
      apply hc
      rw [List.any_eq_true]
      refine ⟨i, List.mem_range.mpr hi, ?_⟩
      simp only [decide_eq_true_eq]
      exact ⟨hcon.1, hcon.2⟩

lemma can_place_word_overlap (g : WordGrid) (word : List Char) (sr sc : Int)
    (d : Pos) (hov : g.creates_unwanted_overlap word sr sc d = true) :
    g.can_place_word word sr sc d = false := by
  rw [can_place_word_eq]
  by_cases hb : sr + ((word.length : Int) - 1) * d.1 < 0 ∨
      g.size ≤ sr + ((word.length : Int) - 1) * d.1 ∨
      sc + ((word.length : Int) - 1) * d.2 < 0 ∨
      g.size ≤ sc + ((word.length : Int) - 1) * d.2
  · rw [if_pos hb]
  · rw [if_neg hb]
    by_cases hc : (List.range word.length).any (fun i =>
        decide (g.grid (sr + (i : Int) * d.1) (sc + (i : Int) * d.2) ≠ emptyCell ∧
          g.grid (sr + (i : Int) * d.1) (sc + (i : Int) * d.2) ≠
            word.getD i emptyCell)) = true
    · rw [if_pos hc]
    · rw [if_neg hc, if_pos hov]

lemma lettersAZ_upper (n : Nat) :
    isUpperCh (lettersAZ.getD (n % lettersAZ.length) 'A') := by
  have hlt : n % lettersAZ.length < lettersAZ.length :=
    Nat.mod_lt _ (by decide)
  have hall : ∀ i, i < lettersAZ.length → isUpperCh (lettersAZ.getD i 'A') := by
    decide
  exact hall _ hlt

lemma fillLoop_ne (ρ : Nat → Nat) (cells : List Pos) :
    ∀ (g : Int → Int → Char) (k : Nat) (r c : Int), g r c ≠ emptyCell →
      (fillLoop ρ g k cells).1 r c = g r c := by
  induction cells with
  | nil => intro g k r c _; rfl
  | cons p rest ih =>
    intro g k r c h
    rw [fillLoop]
    by_cases hp : g p.1 p.2 = emptyCell
    · rw [if_pos hp]
      have hne : ¬(r = p.1 ∧ c = p.2) := by
        intro hc
        rw [hc.1, hc.2] at h
        exact h hp
      have hset : setCell g p.1 p.2
          (lettersAZ.getD (ρ k % lettersAZ.length) 'A') r c = g r c := by
        unfold setCell
        rw [if_neg hne]
      rw [ih _ (k + 1) r c (by rw [hset]; exact h), hset]
    · rw [if_neg hp]
      exact ih g k r c h

lemma fillLoop_upper (ρ : Nat → Nat) (cells : List Pos) :
    ∀ (g : Int → Int → Char) (k : Nat),
      (∀ r2 c2 : Int, g r2 c2 = emptyCell ∨ isUpperCh (g r2 c2)) →
      ∀ r c : Int, ((r, c) ∈ cells ∨ isUpperCh (g r c)) →
        isUpperCh ((fillLoop ρ g k cells).1 r c) := by
  induction cells with
  | nil =>
    intro g k _ r c h
    rcases h with h | h
    · simp at h
    · exact h
  | cons p rest ih =>
    intro g k hok r c h
    rw [fillLoop]
    by_cases hp : g p.1 p.2 = emptyCell
    · rw [if_pos hp]
      set letter := lettersAZ.getD (ρ k % lettersAZ.length) 'A' with hlet
      have hup : isUpperCh letter := by
        rw [hlet]
        exact lettersAZ_upper (ρ k)
      have hok2 : ∀ r2 c2 : Int, setCell g p.1 p.2 letter r2 c2 = emptyCell ∨
          isUpperCh (setCell g p.1 p.2 letter r2 c2) := by
        intro r2 c2
        unfold setCell
        by_cases hc : r2 = p.1 ∧ c2 = p.2
        · rw [if_pos hc]
          right
          exact hup
        · rw [if_neg hc]
          exact hok r2 c2
      refine ih _ (k + 1) hok2 r c ?_
      rcases h with h | h
      · rcases List.mem_cons.mp h with h | h
        · right
          unfold setCell
          rw [if_pos ⟨congrArg Prod.fst h, congrArg Prod.snd h⟩]
          exact hup
        · left
          exact h
      · right
        unfold setCell
        by_cases hc : r = p.1 ∧ c = p.2
        · rw [if_pos hc]
          exact hup
        · rw [if_neg hc]
          exact h
    · rw [if_neg hp]
      refine ih g k hok r c ?_
      rcases h with h | h
      · rcases List.mem_cons.mp h with h | h
        · right
          have h1 : r = p.1 := congrArg Prod.fst h
          have h2 : c = p.2 := congrArg Prod.snd h
          rw [h1, h2]
          rcases hok p.1 p.2 with hx | hx
          · exact absurd hx hp
          · exact hx
        · left
          exact h
      · right
        exact h

lemma mem_cellsList (size r c : Int) (h : inB size r c) :
    (r, c) ∈ cellsList size := by
  unfold inB at h
  obtain ⟨h1, h2, h3, h4⟩ := h
  unfold cellsList
  rw [List.mem_flatMap]
  refine ⟨r.toNat, List.mem_range.mpr (by omega), ?_⟩
  rw [List.mem_map]
  refine ⟨c.toNat, List.mem_range.mpr (by omega), ?_⟩
  rw [Int.toNat_of_nonneg h1, Int.toNat_of_nonneg h3]

/-! Direction vectors, segment bounds, the random primitives, and
association-list lookup. -/

lemma dir_ne_zero (d : Pos) (hd : d ∈ directions) : d.1 ≠ 0 ∨ d.2 ≠ 0 := by
  fin_cases hd <;> decide

lemma dir_bounds (d : Pos) (hd : d ∈ directions) :
    (d.1 = -1 ∨ d.1 = 0 ∨ d.1 = 1) ∧ (d.2 = -1 ∨ d.2 = 0 ∨ d.2 = 1) := by
  fin_cases hd <;> decide

lemma dir_getD_mem (n : Nat) :
    directions.getD (n % directions.length) (0, 1) ∈ directions := by
  have h : ∀ i, i < directions.length → directions.getD i (0, 1) ∈ directions := by
    decide
  exact h _ (Nat.mod_lt _ (by decide))

lemma seg1 (size s L1 step : Int) (hstep : step = -1 ∨ step = 0 ∨ step = 1)
    (hs : 0 ≤ s) (hs2 : s < size)
    (hl1 : 0 ≤ s + L1 * step) (hl2 : s + L1 * step < size)
    (i : Int) (hi0 : 0 ≤ i) (hile : i ≤ L1) :
    0 ≤ s + i * step ∧ s + i * step < size := by
  rcases hstep with h | h | h <;> subst h
  · simp only [mul_neg_one] at hl1 hl2 ⊢
    omega
  · simp only [mul_zero] at hl1 hl2 ⊢
    omega
  · simp only [mul_one] at hl1 hl2 ⊢
    omega

lemma randint_ok (ρ : Nat → Nat) (k : Nat) (a b v : Int)
    (h : randint ρ k a b = .ok v) : a ≤ b ∧ a ≤ v ∧ v ≤ b := by
  unfold randint at h
  split at h
  · rename_i hab
    have hv : a + (ρ k : Int) % (b - a + 1) = v := by
      injection h
    have h1 : 0 ≤ (ρ k : Int) % (b - a + 1) :=
      Int.emod_nonneg _ (by omega)
    have h2 : (ρ k : Int) % (b - a + 1) < b - a + 1 :=
      Int.emod_lt_of_pos _ (by omega)
    exact ⟨hab, by omega, by omega⟩
  · exact absurd h (by simp)

lemma sampleAux_mem (ρ : Nat → Nat) :
    ∀ (n : Nat) (pool : List (List Char)) (k : Nat), n ≤ pool.length →
      ∀ w ∈ sampleAux ρ k pool n, w ∈ pool := by
  intro n
  induction n with
  | zero => intro pool k _ w hw; simp [sampleAux] at hw
  | succ n ih =>
    intro pool k hn w hw
    rw [sampleAux] at hw
    have hpos : 0 < pool.length := by omega
    have hidx : ρ k % pool.length < pool.length := Nat.mod_lt _ hpos
    rcases List.mem_cons.mp hw with hw | hw
    · rw [hw, List.getD_eq_getElem _ _ hidx]
      exact List.getElem_mem hidx
    · have hlen : n ≤ (pool.eraseIdx (ρ k % pool.length)).length := by
        rw [List.length_eraseIdx_of_lt hidx]
        omega
      have := ih (pool.eraseIdx (ρ k % pool.length)) (k + 1) hlen w hw
      exact List.mem_of_mem_eraseIdx this

lemma sample_ok (ρ : Nat → Nat) (k : Nat) (pool : List (List Char)) (n : Int)
    (sel : List (List Char)) (k2 : Nat)
    (h : sample ρ k pool n = .ok (sel, k2)) :
    (0 ≤ n ∧ n ≤ (pool.length : Int)) ∧ ∀ w ∈ sel, w ∈ pool := by
  unfold sample at h
  split at h
  · exact absurd h (by simp)
  · rename_i hc
    push_neg at hc
    have hs : sampleAux ρ k pool n.toNat = sel := by
      injection h with h1
      injection h1 with h2 h3
    refine ⟨⟨by omega, hc.2⟩, ?_⟩
    intro w hw
    rw [← hs] at hw
    exact sampleAux_mem ρ n.toNat pool k (by omega) w hw

lemma lookupPos_mem : ∀ (l : List (List Char × List Pos)) (w : List Char)
    (ps : List Pos), lookupPos l w = some ps → (w, ps) ∈ l := by
  intro l
  induction l with
  | nil => intro w ps h; simp [lookupPos] at h
  | cons e rest ih =>
    intro w ps h
    rw [lookupPos] at h
    split at h
    · rename_i heq
      injection h with h2
      have hwe : (w, ps) = e := by
        rw [← heq, ← h2]
      rw [hwe]
      exact List.mem_cons_self e rest
    · right
      exact ih w ps h

lemma lookupPos_cons (e : List Char × List Pos) (l : List (List Char × List Pos))
    (w : List Char) :
    lookupPos (e :: l) w = if e.1 = w then some e.2 else lookupPos l w := rfl

/-! Placing one word preserves the grid invariants and records a well
formed binding. -/

lemma place_word_ok (g : WordGrid) (word : List Char) (sr sc : Int) (d : Pos)
    (hd : d ∈ directions)
    (hcan : g.can_place_word word sr sc d = true)
    (hsr1 : 0 ≤ sr) (hsr2 : sr < g.size) (hsc1 : 0 ≤ sc) (hsc2 : sc < g.size)
    (hup : ∀ ch ∈ word, isUpperCh ch)
    (hP : PlacedOk g) (hC : CellsOk g) :
    PlacedOk (g.place_word word sr sc d) ∧ CellsOk (g.place_word word sr sc d) ∧
    lookupPos (g.place_word word sr sc d).word_positions word =
      some (posList word.length sr sc d.1 d.2) := by
  obtain ⟨hbounds, hconf⟩ := can_place_word_true g word sr sc d hcan
  have hdnz := dir_ne_zero d hd
  have hdb := dir_bounds d hd
  have hseg : ∀ i : Nat, i < word.length →
      inB g.size (sr + (i : Int) * d.1) (sc + (i : Int) * d.2) := by
    intro i hi
    have hi2 : (i : Int) ≤ (word.length : Int) - 1 := by
      omega
    have hr := seg1 g.size sr ((word.length : Int) - 1) d.1 hdb.1 hsr1 hsr2
      hbounds.1 hbounds.2.1 (i : Int) (by positivity) hi2
    have hc2 := seg1 g.size sc ((word.length : Int) - 1) d.2 hdb.2 hsc1 hsc2
      hbounds.2.2.1 hbounds.2.2.2 (i : Int) (by positivity) hi2
    unfold inB
    exact ⟨hr.1, hr.2, hc2.1, hc2.2⟩
  have hconf2 : ∀ (i : Nat) (hi : i < word.length),
      g.grid (sr + (i : Int) * d.1) (sc + (i : Int) * d.2) = emptyCell ∨
      g.grid (sr + (i : Int) * d.1) (sc + (i : Int) * d.2) =
        word.get ⟨i, hi⟩ := by
    intro i hi
    have h2 := hconf i hi
    rw [List.getD_eq_getElem _ _ hi] at h2
    simpa [List.get_eq_getElem] using h2
  set g2 := g.place_word word sr sc d with hg2
  have hgrid : g2.grid = writeWord g.grid word sr sc d.1 d.2 := rfl
  have hsize : g2.size = g.size := rfl
  have hpw : g2.placed_words = g.placed_words := rfl
  have hwp : g2.word_positions =
      (word, posList word.length sr sc d.1 d.2) :: g.word_positions := rfl
  have hmono : ∀ r2 c2 : Int, g.grid r2 c2 ≠ emptyCell →
      g2.grid r2 c2 = g.grid r2 c2 := by
    intro r2 c2 hne
    rw [hgrid]
    exact writeWord_mono word g.grid sr sc d.1 d.2 hdnz hconf2 r2 c2 hne
  have hread : ∀ (k : Nat) (hk : k < word.length),
      g2.grid (sr + (k : Int) * d.1) (sc + (k : Int) * d.2) =
        word.get ⟨k, hk⟩ := by
    intro k hk
    rw [hgrid]
    exact writeWord_read word g.grid sr sc d.1 d.2 hdnz k hk
  have hnew : EntryOk g2 (word, posList word.length sr sc d.1 d.2) := by
    refine ⟨hup, posList_length _ _ _ _ _, ⟨d, hd, sr, sc, rfl⟩, ?_, ?_⟩
    · intro p hp
      rw [posList_mem] at hp
      obtain ⟨i, hi, rfl⟩ := hp
      exact hseg i hi
    · show (posList word.length sr sc d.1 d.2).map (fun p => g2.grid p.1 p.2)
        = word
      unfold posList
      rw [List.map_map]
      apply List.ext_getElem
      · simp
      · intro k h1 h2
        simp only [List.getElem_map, List.getElem_range, Function.comp_apply]
        have h3 := hread k h2
        simpa [List.get_eq_getElem] using h3
  have hold : ∀ e ∈ g.word_positions, EntryOk g2 e := by
    intro e he
    obtain ⟨e1, e2, e3, e4, e5⟩ := hP.1 e he
    refine ⟨e1, e2, e3, ?_, ?_⟩
    · intro p hp
      exact e4 p hp
    · have hpt : ∀ p ∈ e.2, (fun p : Pos => g2.grid p.1 p.2) p =
          (fun p : Pos => g.grid p.1 p.2) p := by
        intro p hp
        have hv : g.grid p.1 p.2 ∈ e.1 := by
          rw [← e5]
          exact List.mem_map_of_mem _ hp
        exact hmono p.1 p.2 (upper_ne_empty _ (e1 _ hv))
      exact (List.map_congr_left hpt).trans e5
  have hP2 : PlacedOk g2 := by
    constructor
    · intro e he
      rw [hwp] at he
      rcases List.mem_cons.mp he with he | he
      · rw [he]
        exact hnew
      · exact hold e he
    · intro w hw
      rw [hpw] at hw
      obtain ⟨w1, w2, ps, w3⟩ := hP.2 w hw
      refine ⟨w1, w2, ?_⟩
      rw [hwp, lookupPos_cons]
      by_cases hww : word = w
      · refine ⟨posList word.length sr sc d.1 d.2, ?_⟩
        rw [if_pos hww]
      · exact ⟨ps, by rw [if_neg hww]; exact w3⟩
  have hC2 : CellsOk g2 := by
    intro r2 c2
    rw [hgrid]
    rcases writeWord_val word g.grid sr sc d.1 d.2 r2 c2 with h | h
    · rw [h]
      exact hC r2 c2
    · right
      exact hup _ h
  have hlook : lookupPos g2.word_positions word =
      some (posList word.length sr sc d.1 d.2) := by
    rw [hwp, lookupPos_cons, if_pos rfl]
  exact ⟨hP2, hC2, hlook⟩

/-! Invariants through the placement loops, the fill pass and generate. -/

lemma attemptLoop_ok (word : List Char) (ρ : Nat → Nat)
    (hup : ∀ ch ∈ word, isUpperCh ch) :
    ∀ (n k : Nat) (g : WordGrid), PlacedOk g → CellsOk g →
      ∀ res, g.attemptLoop word ρ k n = .ok res →
        PlacedOk res.1 ∧ CellsOk res.1 ∧ res.1.size = g.size ∧
        res.1.placed_words = g.placed_words ∧
        res.1.word_list = g.word_list ∧
        res.1.rabin_karp = g.rabin_karp ∧
        res.1.word_count = g.word_count ∧
        (res.2.1 = true →
          ∃ ps, lookupPos res.1.word_positions word = some ps) := by
  intro n
  induction n with
  | zero =>
    intro k g hP hC res h
    rw [WordGrid.attemptLoop] at h
    have hres : (g, false, k) = res := by injection h
    rw [← hres]
    refine ⟨hP, hC, rfl, rfl, rfl, rfl, rfl, ?_⟩
    intro hcon
    simp at hcon
  | succ n ih =>
    intro k g hP hC res h
    rw [WordGrid.attemptLoop] at h
    cases hr1 : randint ρ k 0 (g.size - 1) with
    | error e =>
      simp only [hr1] at h
      exact Except.noConfusion h
    | ok row =>
      simp only [hr1] at h
      cases hr2 : randint ρ (k + 1) 0 (g.size - 1) with
      | error e =>
        simp only [hr2] at h
        exact Except.noConfusion h
      | ok col =>
        simp only [hr2] at h
        obtain ⟨_, hrow1, hrow2⟩ := randint_ok ρ k 0 (g.size - 1) row hr1
        obtain ⟨_, hcol1, hcol2⟩ := randint_ok ρ (k + 1) 0 (g.size - 1) col hr2
        by_cases hcan : g.can_place_word word row col
            (directions.getD (ρ (k + 2) % directions.length) (0, 1)) = true
        · rw [if_pos hcan] at h
          have hres : (g.place_word word row col
              (directions.getD (ρ (k + 2) % directions.length) (0, 1)),
              true, k + 3) = res := by
            injection h
          rw [← hres]
          have hpl := place_word_ok g word row col
            (directions.getD (ρ (k + 2) % directions.length) (0, 1))
            (dir_getD_mem _) hcan hrow1 (by omega) hcol1 (by omega) hup hP hC
          exact ⟨hpl.1, hpl.2.1, rfl, rfl, rfl, rfl, rfl,
            fun _ => ⟨_, hpl.2.2⟩⟩
        · rw [if_neg hcan] at h
          exact ih (k + 3) g hP hC res h

lemma placeWordsLoop_ok (ρ : Nat → Nat) :
    ∀ (ws : List (List Char)) (g : WordGrid) (k : Nat),
      PlacedOk g → CellsOk g →
      (∀ w ∈ ws, w ≠ [] ∧ ∀ ch ∈ w, isLetterCh ch) →
      ∀ res, g.placeWordsLoop ρ ws k = .ok res →
        PlacedOk res.1 ∧ CellsOk res.1 ∧ res.1.size = g.size ∧
        res.1.rabin_karp = g.rabin_karp ∧
        (∀ w2 ∈ res.1.placed_words, w2 ∈ g.placed_words ∨
          ∃ sw ∈ ws, w2 = sw.map Char.toUpper) := by
  intro ws
  induction ws with
  | nil =>
    intro g k hP hC _ res h
    rw [WordGrid.placeWordsLoop] at h
    have hres : (g, k) = res := by injection h
    rw [← hres]
    exact ⟨hP, hC, rfl, rfl, fun w2 hw => Or.inl hw⟩
  | cons w rest ih =>
    intro g k hP hC hws res h
    rw [WordGrid.placeWordsLoop] at h
    cases hat : g.attemptLoop (w.map Char.toUpper) ρ k maxAttempts with
    | error e =>
      simp only [hat] at h
      exact Except.noConfusion h
    | ok trip =>
      obtain ⟨g2, placed, k2⟩ := trip
      simp only [hat] at h
      have hwhd := hws w (List.mem_cons_self w rest)
      have hwu : ∀ ch ∈ w.map Char.toUpper, isUpperCh ch :=
        map_toUpper_letter w hwhd.2
      obtain ⟨hP2, hC2, hsz, hpw2, hwl2, hrk2, hwc2, hlk⟩ :=
        attemptLoop_ok (w.map Char.toUpper) ρ hwu maxAttempts k g hP hC
          (g2, placed, k2) hat
      have hrest : ∀ w2 ∈ rest, w2 ≠ [] ∧ ∀ ch ∈ w2, isLetterCh ch :=
        fun w2 hw2 => hws w2 (List.mem_cons_of_mem w hw2)
      by_cases hpl : placed = true
      · rw [if_pos hpl] at h
        have hP3 : PlacedOk { g2 with
            placed_words := g2.placed_words ++ [w.map Char.toUpper] } := by
          constructor
          · intro e he
            exact hP2.1 e he
          · intro w2 hw2
            rcases List.mem_append.mp hw2 with hw2 | hw2
            · exact hP2.2 w2 hw2
            · have hw2e : w2 = w.map Char.toUpper := by
                simpa using hw2
              subst hw2e
              refine ⟨?_, hwu, hlk hpl⟩
              intro hx
              exact hwhd.1 (by simpa using hx)
        have hC3 : CellsOk { g2 with
            placed_words := g2.placed_words ++ [w.map Char.toUpper] } := hC2
        obtain ⟨hPr, hCr, hszr, hrkr, horigr⟩ :=
          ih { g2 with placed_words := g2.placed_words ++ [w.map Char.toUpper] }
            k2 hP3 hC3 hrest res h
        refine ⟨hPr, hCr, by rw [hszr]; exact hsz, by rw [hrkr]; exact hrk2, ?_⟩
        intro w2 hw2
        rcases horigr w2 hw2 with hw2 | hw2
        · have hw2b : w2 ∈ g2.placed_words ++ [w.map Char.toUpper] := hw2
          rcases List.mem_append.mp hw2b with hw2c | hw2c
          · left
            rw [← hpw2]
            exact hw2c
          · right
            exact ⟨w, List.mem_cons_self w rest, by simpa using hw2c⟩
        · obtain ⟨sw, hsw, he⟩ := hw2
          exact Or.inr ⟨sw, List.mem_cons_of_mem w hsw, he⟩
      · rw [if_neg hpl] at h
        obtain ⟨hPr, hCr, hszr, hrkr, horigr⟩ := ih g2 k2 hP2 hC2 hrest res h
        refine ⟨hPr, hCr, by rw [hszr]; exact hsz, by rw [hrkr]; exact hrk2, ?_⟩
        intro w2 hw2
        rcases horigr w2 hw2 with hw2 | hw2
        · left
          rw [← hpw2]
          exact hw2
        · obtain ⟨sw, hsw, he⟩ := hw2
          exact Or.inr ⟨sw, List.mem_cons_of_mem w hsw, he⟩

lemma place_words_ok (g : WordGrid) (ρ : Nat → Nat) (k : Nat)
    (hP : PlacedOk g) (hC : CellsOk g)
    (hwl : ∀ w ∈ g.word_list, w ≠ [] ∧ ∀ ch ∈ w, isLetterCh ch) :
    ∀ res, g.place_words ρ k = .ok res →
      PlacedOk res.1 ∧ CellsOk res.1 ∧ res.1.size = g.size ∧
      res.1.rabin_karp = g.rabin_karp ∧
      (∀ w ∈ res.1.placed_words, w ∈ g.placed_words ∨
        ∃ sw ∈ g.word_list, w = sw.map Char.toUpper) := by
  intro res h
  unfold WordGrid.place_words at h
  cases hs : sample ρ k g.word_list
      (min g.word_count (g.word_list.length : Int)) with
  | error e =>
    simp only [hs] at h
    exact Except.noConfusion h
  | ok pr =>
    obtain ⟨sel, k2⟩ := pr
    simp only [hs] at h
    have hmem := (sample_ok ρ k g.word_list _ sel k2 hs).2
    have hsel : ∀ w ∈ sel, w ≠ [] ∧ ∀ ch ∈ w, isLetterCh ch :=
      fun w hw => hwl w (hmem w hw)
    obtain ⟨h1, h2, h3, h4, h5⟩ := placeWordsLoop_ok ρ sel g k2 hP hC hsel res h
    refine ⟨h1, h2, h3, h4, ?_⟩
    intro w hw
    rcases h5 w hw with hw | hw
    · exact Or.inl hw
    · obtain ⟨sw, hsw, he⟩ := hw
      exact Or.inr ⟨sw, hmem sw hsw, he⟩

lemma fill_ok (g : WordGrid) (ρ : Nat → Nat) (k : Nat)
    (hP : PlacedOk g) (hC : CellsOk g) :
    PlacedOk (g.fill_empty_cells ρ k).1 ∧
    (g.fill_empty_cells ρ k).1.size = g.size ∧
    (g.fill_empty_cells ρ k).1.placed_words = g.placed_words ∧
    (g.fill_empty_cells ρ k).1.rabin_karp = g.rabin_karp ∧
    (∀ r c : Int, inB g.size r c →
      isUpperCh ((g.fill_empty_cells ρ k).1.grid r c)) := by
  have hgr : (g.fill_empty_cells ρ k).1.grid =
      (fillLoop ρ g.grid k (cellsList g.size)).1 := rfl
  have hfr : ∀ r c : Int, g.grid r c ≠ emptyCell →
      (g.fill_empty_cells ρ k).1.grid r c = g.grid r c := by
    intro r c hne
    rw [hgr]
    exact fillLoop_ne ρ (cellsList g.size) g.grid k r c hne
  refine ⟨?_, rfl, rfl, rfl, ?_⟩
  · constructor
    · intro e he
      obtain ⟨e1, e2, e3, e4, e5⟩ := hP.1 e he
      refine ⟨e1, e2, e3, e4, ?_⟩
      have hpt : ∀ p ∈ e.2,
          (fun p : Pos => (g.fill_empty_cells ρ k).1.grid p.1 p.2) p =
          (fun p : Pos => g.grid p.1 p.2) p := by
        intro p hp
        have hv : g.grid p.1 p.2 ∈ e.1 := by
          rw [← e5]
          exact List.mem_map_of_mem _ hp
        exact hfr p.1 p.2 (upper_ne_empty _ (e1 _ hv))
      exact (List.map_congr_left hpt).trans e5
    · intro w hw
      exact hP.2 w hw
  · intro r c hrc
    rw [hgr]
    exact fillLoop_upper ρ (cellsList g.size) g.grid k hC r c
      (Or.inl (mem_cellsList g.size r c hrc))

lemma generate_ok (size wc : Int) (wl : List (List Char)) (ρ : Nat → Nat)
    (hwl : ∀ w ∈ wl, w ≠ [] ∧ ∀ ch ∈ w, isLetterCh ch) (gf : WordGrid)
    (h : (WordGrid.new size wl wc).generate ρ = .ok gf) :
    gf.size = size ∧ gf.rabin_karp = rkDefault ∧ PlacedOk gf ∧
    (∀ r c : Int, inB size r c → isUpperCh (gf.grid r c)) ∧
    (∀ w ∈ gf.placed_words, ∃ sw ∈ wl, w = sw.map Char.toUpper) := by
  unfold WordGrid.generate at h
  cases hp : (WordGrid.new size wl wc).init_grid.place_words ρ 0 with
  | error e =>
    simp only [hp] at h
    exact Except.noConfusion h
  | ok pr =>
    obtain ⟨g2, k⟩ := pr
    simp only [hp] at h
    have hinitP : PlacedOk (WordGrid.new size wl wc).init_grid := by
      constructor
      · intro e he
        exact absurd he (List.not_mem_nil e)
      · intro w hw
        exact absurd hw (List.not_mem_nil w)
    have hinitC : CellsOk (WordGrid.new size wl wc).init_grid :=
      fun r c => Or.inl rfl
    obtain ⟨hP2, hC2, hsz2, hrk2, horig⟩ :=
      place_words_ok _ ρ 0 hinitP hinitC hwl (g2, k) hp
    have hgf : (g2.fill_empty_cells ρ k).1 = gf := by
      injection h
    obtain ⟨hPf, hszf, hpwf, hrkf, hupf⟩ := fill_ok g2 ρ k hP2 hC2
    rw [hgf] at hPf hszf hpwf hrkf hupf
    refine ⟨by rw [hszf, hsz2]; rfl, by rw [hrkf, hrk2]; rfl, hPf, ?_, ?_⟩
    · intro r c hrc
      apply hupf
      rw [hsz2]
      exact hrc
    · intro w hw
      rw [hpwf] at hw
      rcases horig w hw with hw2 | hw2
      · exact absurd hw2 (List.not_mem_nil w)
      · exact hw2

/-! The verification layer: reading letters at positions, the exact
position check, and is_word_at_positions. -/

lemma search_mem_iff (rk : RabinKarp) (hp : 0 < rk.prime)
    (pattern text : List Char) (i : Nat) :
    i ∈ rk.search pattern text ↔
      pattern ≠ [] ∧ i + pattern.length ≤ text.length ∧
        (text.drop i).take pattern.length = pattern := by
  rw [search_eq rk hp]
  by_cases hdeg : pattern = [] ∨ text = [] ∨ text.length < pattern.length
  · rw [if_pos hdeg]
    simp only [List.not_mem_nil, false_iff]
    rintro ⟨hne, hle, _⟩
    have hpos : 0 < pattern.length := List.length_pos.mpr hne
    rcases hdeg with h | h | h
    · exact hne h
    · rw [h, List.length_nil] at hle
      omega
    · omega
  · rw [if_neg hdeg]
    push_neg at hdeg
    obtain ⟨h1, h2, h3⟩ := hdeg
    rw [List.mem_filter, List.mem_range]
    simp only [decide_eq_true_eq]
    constructor
    · rintro ⟨hi, hw⟩
      exact ⟨h1, by omega, hw⟩
    · rintro ⟨_, hi, hw⟩
      exact ⟨by omega, hw⟩

lemma self_mem_search (rk : RabinKarp) (hp : 0 < rk.prime) (w : List Char)
    (hw : w ≠ []) : 0 ∈ rk.search w w := by
  rw [search_mem_iff rk hp]
  exact ⟨hw, by omega, by rw [List.drop_zero, List.take_length]⟩

lemma not_isEmpty_of_mem {α : Type} {l : List α} {x : α} (h : x ∈ l) :
    (!l.isEmpty) = true := by
  cases l with
  | nil => exact absurd h (List.not_mem_nil x)
  | cons a as => rfl

lemma any_congr_mem {α : Type} (l : List α) (p q : α → Bool)
    (h : ∀ a ∈ l, p a = q a) : l.any p = l.any q := by
  induction l with
  | nil => rfl
  | cons a as ih =>
    simp only [List.any_cons]
    rw [h a (List.mem_cons_self a as),
      ih (fun b hb => h b (List.mem_cons_of_mem a hb))]

/-- The branch structure of is_word_at_positions, spelled out. -/
lemma is_word_at_eq (g : WordGrid) (positions : List Pos) :
    g.is_word_at_positions positions =
      (if positions = [] then false
      else match g.readWord positions with
        | none => false
        | some word =>
          g.placed_words.any fun pw =>
            (!(g.rabin_karp.search pw (word.map Char.toUpper)).isEmpty ||
              !(g.rabin_karp.search pw (word.map Char.toUpper).reverse).isEmpty) &&
            g.verify_word_positions pw positions) := rfl

lemma readWord_some (g : WordGrid) : ∀ ps : List Pos,
    (∀ p ∈ ps, inB g.size p.1 p.2) →
    g.readWord ps = some (ps.map fun p => g.grid p.1 p.2) := by
  intro ps
  induction ps with
  | nil => intro _; rfl
  | cons p rest ih =>
    intro h
    rw [WordGrid.readWord, if_pos (h p (List.mem_cons_self p rest)),
      ih fun q hq => h q (List.mem_cons_of_mem p hq)]
    rfl

lemma readWord_none (g : WordGrid) : ∀ (ps : List Pos) (p : Pos), p ∈ ps →
    ¬inB g.size p.1 p.2 → g.readWord ps = none := by
  intro ps
  induction ps with
  | nil => intro p hp; exact absurd hp (List.not_mem_nil p)
  | cons q rest ih =>
    intro p hp hnb
    rw [WordGrid.readWord]
    rcases List.mem_cons.mp hp with hp | hp
    · rw [if_neg (by rw [← hp]; exact hnb)]
    · by_cases hq : inB g.size q.1 q.2
      · rw [if_pos hq, ih p hp hnb]
        rfl
      · rw [if_neg hq]

lemma verify_eq (g : WordGrid) (word : List Char) (positions : List Pos) :
    g.verify_word_positions word positions = true ↔
      ∃ ps, lookupPos g.word_positions word = some ps ∧
        (positions = ps ∨ positions = ps.reverse) := by
  unfold WordGrid.verify_word_positions
  cases hl : lookupPos g.word_positions word with
  | none =>
    simp only [Bool.false_eq_true, false_iff]
    rintro ⟨ps, hps, _⟩
    exact Option.noConfusion hps
  | some ps =>
    show (if positions.length = ps.length then
        (decide (positions = ps) || decide (positions = ps.reverse))
      else false) = true ↔ _
    by_cases hlen : positions.length = ps.length
    · rw [if_pos hlen]
      simp only [Bool.or_eq_true, decide_eq_true_eq]
      constructor
      · intro h
        exact ⟨ps, rfl, h⟩
      · rintro ⟨ps2, hps2, hor⟩
        have heq : ps = ps2 := by
          injection hps2
        rw [heq]
        exact hor
    · rw [if_neg hlen]
      simp only [Bool.false_eq_true, false_iff]
      rintro ⟨ps2, hps2, hor⟩
      have heq : ps = ps2 := by
        injection hps2
      subst heq
      rcases hor with hor | hor
      · exact hlen (by rw [hor])
      · exact hlen (by rw [hor, List.length_reverse])

lemma verify_reverse (g : WordGrid) (word : List Char) (P : List Pos) :
    g.verify_word_positions word P.reverse = g.verify_word_positions word P := by
  rw [Bool.eq_iff_iff, verify_eq, verify_eq]
  constructor
  · rintro ⟨ps, hl, hor | hor⟩
    · exact ⟨ps, hl, Or.inr (by rw [← hor, List.reverse_reverse])⟩
    · exact ⟨ps, hl, Or.inl (by
        have := congrArg List.reverse hor
        rwa [List.reverse_reverse, List.reverse_reverse] at this)⟩
  · rintro ⟨ps, hl, hor | hor⟩
    · exact ⟨ps, hl, Or.inr (by rw [hor])⟩
    · exact ⟨ps, hl, Or.inl (by rw [hor, List.reverse_reverse])⟩

lemma is_word_at_reverse (g : WordGrid) (P : List Pos) :
    g.is_word_at_positions P.reverse = g.is_word_at_positions P := by
  rw [is_word_at_eq, is_word_at_eq]
  by_cases hP : P = []
  · subst hP
    rfl
  · have hPr : P.reverse ≠ [] := by
      intro hx
      exact hP (by simpa using congrArg List.reverse hx)
    rw [if_neg hP, if_neg hPr]
    by_cases hin : ∀ p ∈ P, inB g.size p.1 p.2
    · have hinr : ∀ p ∈ P.reverse, inB g.size p.1 p.2 :=
        fun p hp => hin p (List.mem_reverse.mp hp)
      rw [readWord_some g P hin, readWord_some g P.reverse hinr,
        List.map_reverse]
      apply any_congr_mem
      intro pw _
      rw [← List.map_reverse, List.map_reverse (fun p : Pos => g.grid p.1 p.2)]
      rw [List.map_reverse Char.toUpper]
      rw [List.reverse_reverse, verify_reverse]
      rw [Bool.or_comm]
    · push_neg at hin
      obtain ⟨p, hp, hnb⟩ := hin
      rw [readWord_none g P p hp hnb,
        readWord_none g P.reverse p (List.mem_reverse.mpr hp) hnb]

/-! A lighter pass: every cell stays empty-or-uppercase through the
placement loops, with no other invariants needed. -/

lemma place_word_cells (g : WordGrid) (word : List Char) (sr sc : Int)
    (d : Pos) (hup : ∀ ch ∈ word, isUpperCh ch) (hC : CellsOk g) :
    CellsOk (g.place_word word sr sc d) := by
  intro r2 c2
  have hgrid : (g.place_word word sr sc d).grid =
      writeWord g.grid word sr sc d.1 d.2 := rfl
  rw [hgrid]
  rcases writeWord_val word g.grid sr sc d.1 d.2 r2 c2 with h | h
  · rw [h]
    exact hC r2 c2
  · right
    exact hup _ h

lemma attemptLoop_cells (word : List Char) (ρ : Nat → Nat)
    (hup : ∀ ch ∈ word, isUpperCh ch) :
    ∀ (n k : Nat) (g : WordGrid), CellsOk g →
      ∀ res, g.attemptLoop word ρ k n = .ok res →
        CellsOk res.1 ∧ res.1.size = g.size := by
  intro n
  induction n with
  | zero =>
    intro k g hC res h
    rw [WordGrid.attemptLoop] at h
    have hres : (g, false, k) = res := by injection h
    rw [← hres]
    exact ⟨hC, rfl⟩
  | succ n ih =>
    intro k g hC res h
    rw [WordGrid.attemptLoop] at h
    cases hr1 : randint ρ k 0 (g.size - 1) with
    | error e =>
      simp only [hr1] at h
      exact Except.noConfusion h
    | ok row =>
      simp only [hr1] at h
      cases hr2 : randint ρ (k + 1) 0 (g.size - 1) with
      | error e =>
        simp only [hr2] at h
        exact Except.noConfusion h
      | ok col =>
        simp only [hr2] at h
        by_cases hcan : g.can_place_word word row col
            (directions.getD (ρ (k + 2) % directions.length) (0, 1)) = true
        · rw [if_pos hcan] at h
          have hres : (g.place_word word row col
              (directions.getD (ρ (k + 2) % directions.length) (0, 1)),
              true, k + 3) = res := by
            injection h
          rw [← hres]
          exact ⟨place_word_cells g word row col _ hup hC, rfl⟩
        · rw [if_neg hcan] at h
          exact ih (k + 3) g hC res h

lemma placeWordsLoop_cells (ρ : Nat → Nat) :
    ∀ (ws : List (List Char)) (g : WordGrid) (k : Nat), CellsOk g →
      (∀ w ∈ ws, ∀ ch ∈ w, isLetterCh ch) →
      ∀ res, g.placeWordsLoop ρ ws k = .ok res →
        CellsOk res.1 ∧ res.1.size = g.size := by
  intro ws
  induction ws with
  | nil =>
    intro g k hC _ res h
    rw [WordGrid.placeWordsLoop] at h
    have hres : (g, k) = res := by injection h
    rw [← hres]
    exact ⟨hC, rfl⟩
  | cons w rest ih =>
    intro g k hC hws res h
    rw [WordGrid.placeWordsLoop] at h
    cases hat : g.attemptLoop (w.map Char.toUpper) ρ k maxAttempts with
    | error e =>
      simp only [hat] at h
      exact Except.noConfusion h
    | ok trip =>
      obtain ⟨g2, placed, k2⟩ := trip
      simp only [hat] at h
      have hwu : ∀ ch ∈ w.map Char.toUpper, isUpperCh ch :=
        map_toUpper_letter w (hws w (List.mem_cons_self w rest))
      obtain ⟨hC2, hsz2⟩ := attemptLoop_cells (w.map Char.toUpper) ρ hwu
        maxAttempts k g hC (g2, placed, k2) hat
      have hrest : ∀ w2 ∈ rest, ∀ ch ∈ w2, isLetterCh ch :=
        fun w2 hw2 => hws w2 (List.mem_cons_of_mem w hw2)
      by_cases hpl : placed = true
      · rw [if_pos hpl] at h
        obtain ⟨hC3, hsz3⟩ := ih { g2 with
          placed_words := g2.placed_words ++ [w.map Char.toUpper] } k2 hC2
          hrest res h
        exact ⟨hC3, by rw [hsz3]; exact hsz2⟩
      · rw [if_neg hpl] at h
        obtain ⟨hC3, hsz3⟩ := ih g2 k2 hC2 hrest res h
        exact ⟨hC3, by rw [hsz3]; exact hsz2⟩

lemma generate_cells (size wc : Int) (wl : List (List Char)) (ρ : Nat → Nat)
    (hwl : ∀ w ∈ wl, ∀ ch ∈ w, isLetterCh ch) (gf : WordGrid)
    (h : (WordGrid.new size wl wc).generate ρ = .ok gf) :
    gf.size = size ∧ ∀ r c : Int, inB size r c → isUpperCh (gf.grid r c) := by
  unfold WordGrid.generate at h
  cases hp : (WordGrid.new size wl wc).init_grid.place_words ρ 0 with
  | error e =>
    simp only [hp] at h
    exact Except.noConfusion h
  | ok pr =>
    obtain ⟨g2, k⟩ := pr
    simp only [hp] at h
    unfold WordGrid.place_words at hp
    cases hs : sample ρ 0 (WordGrid.new size wl wc).init_grid.word_list
        (min (WordGrid.new size wl wc).init_grid.word_count
          ((WordGrid.new size wl wc).init_grid.word_list.length : Int)) with
    | error e =>
      simp only [hs] at hp
      exact Except.noConfusion hp
    | ok pr2 =>
      obtain ⟨sel, k2⟩ := pr2
      simp only [hs] at hp
      have hmem := (sample_ok ρ 0 _ _ sel k2 hs).2
      have hsel : ∀ w ∈ sel, ∀ ch ∈ w, isLetterCh ch :=
        fun w hw => hwl w (hmem w hw)
      obtain ⟨hC2, hsz2⟩ := placeWordsLoop_cells ρ sel
        (WordGrid.new size wl wc).init_grid k2 (fun r c => Or.inl rfl) hsel
        (g2, k) hp
      have hgf : (g2.fill_empty_cells ρ k).1 = gf := by
        injection h
      have hgr : (g2.fill_empty_cells ρ k).1.grid =
          (fillLoop ρ g2.grid k (cellsList g2.size)).1 := rfl
      refine ⟨by rw [← hgf]; show g2.size = size; rw [hsz2]; rfl, ?_⟩
      intro r c hrc
      rw [← hgf, hgr]
      refine fillLoop_upper ρ (cellsList g2.size) g2.grid k hC2 r c
        (Or.inl (mem_cellsList g2.size r c ?_))
      rw [hsz2]
      exact hrc

/-- Claim C5: after generate() completes on a grid constructed with
size >= 1 and a word source whose entries consist only of letters, every
one of the size x size cells holds a single uppercase letter A-Z and no
cell holds the empty marker. -/
theorem claim_C5 (size wc : Int) (wl : List (List Char)) (ρ : Nat → Nat)
    (gf : WordGrid) (hsz : 1 ≤ size)
    (hwl : ∀ w ∈ wl, ∀ ch ∈ w, isLetterCh ch)
    (hgen : (WordGrid.new size wl wc).generate ρ = .ok gf) :
    ∀ r c : Int, 0 ≤ r → r < size → 0 ≤ c → c < size →
      isUpperCh (gf.grid r c) ∧ gf.grid r c ≠ emptyCell := by
  intro r c h1 h2 h3 h4
  have hup := (generate_cells size wc wl ρ hwl gf hgen).2 r c
    (by unfold inB; exact ⟨h1, h2, h3, h4⟩)
  exact ⟨hup, upper_ne_empty _ hup⟩

/-- Witness for C5 on a concrete generated 3x3 grid. -/
theorem claim_C5_witness :
    isUpperCh (gDemo.grid 0 0) ∧ gDemo.grid 0 0 ≠ emptyCell :=
  claim_C5 3 1 [['C', 'A', 'T']] rho0 gDemo (by decide) (by decide) rfl
    0 0 (by decide) (by decide) (by decide) (by decide)

/-- Claim C6: after generate() completes, every placed word's recorded
coordinate list has the same length as the word, lies within [0, size),
reads back the word exactly forward off the grid, and steps by one fixed
direction vector among the 8 permitted ones. -/
theorem claim_C6 (size wc : Int) (wl : List (List Char)) (ρ : Nat → Nat)
    (gf : WordGrid)
    (hwl : ∀ w ∈ wl, w ≠ [] ∧ ∀ ch ∈ w, isLetterCh ch)
    (hgen : (WordGrid.new size wl wc).generate ρ = .ok gf) :
    ∀ w ∈ gf.placed_words, ∃ ps,
      lookupPos gf.word_positions w = some ps ∧
      ps.length = w.length ∧
      (∀ p ∈ ps, 0 ≤ p.1 ∧ p.1 < size ∧ 0 ≤ p.2 ∧ p.2 < size) ∧
      ps.map (fun p => gf.grid p.1 p.2) = w ∧
      ∃ d ∈ directions,
        ∀ (k : Nat) (h1 : k < ps.length) (h2 : k + 1 < ps.length),
          (ps.get ⟨k + 1, h2⟩).1 - (ps.get ⟨k, h1⟩).1 = d.1 ∧
          (ps.get ⟨k + 1, h2⟩).2 - (ps.get ⟨k, h1⟩).2 = d.2 := by
  obtain ⟨hsz, hrk, hPl, hup, horig⟩ := generate_ok size wc wl ρ hwl gf hgen
  intro w hw
  obtain ⟨hwne, hwup, ps, hlook⟩ := hPl.2 w hw
  obtain ⟨e1, e2, e3, e4, e5⟩ := hPl.1 (w, ps) (lookupPos_mem _ _ _ hlook)
  have e2b : ps.length = w.length := e2
  have e4b : ∀ p ∈ ps, inB gf.size p.1 p.2 := e4
  have e5b : ps.map (fun p => gf.grid p.1 p.2) = w := e5
  refine ⟨ps, hlook, e2b, ?_, e5b, ?_⟩
  · intro p hp
    have hb := e4b p hp
    unfold inB at hb
    rw [hsz] at hb
    exact hb
  · obtain ⟨d, hd, sr, sc, hshape⟩ := e3
    have hshape2 : ps = posList w.length sr sc d.1 d.2 := hshape
    subst hshape2
    refine ⟨d, hd, ?_⟩
    intro k h1 h2
    rw [posList_get, posList_get]
    constructor <;> (push_cast; ring)

/-- Witness for C6 on a concrete generated 3x3 grid. -/
theorem claim_C6_witness :
    ∃ ps, lookupPos gDemo.word_positions ['C', 'A', 'T'] = some ps ∧
      ps.length = (['C', 'A', 'T'] : List Char).length ∧
      (∀ p ∈ ps, 0 ≤ p.1 ∧ p.1 < 3 ∧ 0 ≤ p.2 ∧ p.2 < 3) ∧
      ps.map (fun p => gDemo.grid p.1 p.2) = ['C', 'A', 'T'] ∧
      ∃ d ∈ directions,
        ∀ (k : Nat) (h1 : k < ps.length) (h2 : k + 1 < ps.length),
          (ps.get ⟨k + 1, h2⟩).1 - (ps.get ⟨k, h1⟩).1 = d.1 ∧
          (ps.get ⟨k + 1, h2⟩).2 - (ps.get ⟨k, h1⟩).2 = d.2 :=
  claim_C6 3 1 [['C', 'A', 'T']] rho0 gDemo (by decide) rfl
    ['C', 'A', 'T'] (by decide)

/-- Claim C1: on a generated grid, a coordinate list P whose coordinates
are all in bounds verifies exactly when some placed word's recorded
coordinate list equals P forward or reversed; a coincidental letter match
along a different path is rejected. -/
theorem claim_C1 (size wc : Int) (wl : List (List Char)) (ρ : Nat → Nat)
    (gf : WordGrid)
    (hwl : ∀ w ∈ wl, w ≠ [] ∧ ∀ ch ∈ w, isLetterCh ch)
    (hgen : (WordGrid.new size wl wc).generate ρ = .ok gf)
    (P : List Pos) (hP : ∀ p ∈ P, inB gf.size p.1 p.2) :
    gf.is_word_at_positions P = true ↔
      ∃ w ∈ gf.placed_words, ∃ ps,
        lookupPos gf.word_positions w = some ps ∧
        (P = ps ∨ P = ps.reverse) := by
  obtain ⟨hsz, hrk, hPl, hup, horig⟩ := generate_ok size wc wl ρ hwl gf hgen
  have hprime : 0 < gf.rabin_karp.prime := by
    rw [hrk]
    decide
  constructor
  · intro h
    rw [is_word_at_eq] at h
    by_cases hPe : P = []
    · rw [if_pos hPe] at h
      exact absurd h (by simp)
    · rw [if_neg hPe, readWord_some gf P hP] at h
      rw [List.any_eq_true] at h
      obtain ⟨pw, hpw, hbody⟩ := h
      rw [Bool.and_eq_true] at hbody
      obtain ⟨ps, hlook, hor⟩ := (verify_eq gf pw P).mp hbody.2
      exact ⟨pw, hpw, ps, hlook, hor⟩
  · rintro ⟨w, hw, ps, hlook, hor⟩
    obtain ⟨hwne, hwup, _⟩ := hPl.2 w hw
    obtain ⟨e1, e2, e3, e4, e5⟩ := hPl.1 (w, ps) (lookupPos_mem _ _ _ hlook)
    have e2b : ps.length = w.length := e2
    have e5b : ps.map (fun p => gf.grid p.1 p.2) = w := e5
    have hpsne : ps ≠ [] := by
      intro hx
      rw [hx] at e2b
      exact hwne (List.eq_nil_of_length_eq_zero e2b.symm)
    have hPne : P ≠ [] := by
      rcases hor with hor | hor
      · rw [hor]
        exact hpsne
      · rw [hor]
        intro hx
        exact hpsne (by simpa using congrArg List.reverse hx)
    rw [is_word_at_eq, if_neg hPne, readWord_some gf P hP, List.any_eq_true]
    refine ⟨w, hw, ?_⟩
    rw [Bool.and_eq_true]
    refine ⟨?_, (verify_eq gf w P).mpr ⟨ps, hlook, hor⟩⟩
    rw [Bool.or_eq_true]
    rcases hor with hor | hor
    · subst hor
      rw [e5b, map_toUpper_upper w hwup]
      left
      exact not_isEmpty_of_mem (self_mem_search gf.rabin_karp hprime w hwne)
    · subst hor
      rw [List.map_reverse, e5b, List.map_reverse, map_toUpper_upper w hwup,
        List.reverse_reverse]
      right
      exact not_isEmpty_of_mem (self_mem_search gf.rabin_karp hprime w hwne)

/-- Witness for C1 on a concrete generated 3x3 grid. -/
theorem claim_C1_witness :
    gDemo.is_word_at_positions [(0, 0), (0, 1), (0, 2)] = true ↔
      ∃ w ∈ gDemo.placed_words, ∃ ps,
        lookupPos gDemo.word_positions w = some ps ∧
        ([((0 : Int), (0 : Int)), (0, 1), (0, 2)] = ps ∨
          [((0 : Int), (0 : Int)), (0, 1), (0, 2)] = ps.reverse) :=
  claim_C1 3 1 [['C', 'A', 'T']] rho0 gDemo (by decide) rfl
    [(0, 0), (0, 1), (0, 2)] (by decide)

/-- Claim C7: is_word_at_positions gives the same verdict on a
coordinate list and on its reverse. -/
theorem claim_C7 (g : WordGrid) (P : List Pos) :
    g.is_word_at_positions P.reverse = g.is_word_at_positions P :=
  is_word_at_reverse g P

/-- Claim C9: an out-of-bounds coordinate makes get_letter return none
and makes is_word_at_positions reject any list containing it, with no
exception (the model functions are total). -/
theorem claim_C9 (g : WordGrid) (r c : Int) (P : List Pos)
    (hrc : r < 0 ∨ g.size ≤ r ∨ c < 0 ∨ g.size ≤ c) (hP : (r, c) ∈ P) :
    g.get_letter r c = none ∧ g.is_word_at_positions P = false := by
  have hnb : ¬inB g.size r c := by
    unfold inB
    omega
  constructor
  · unfold WordGrid.get_letter
    rw [if_neg hnb]
  · rw [is_word_at_eq]
    rw [if_neg (by
      intro he
      rw [he] at hP
      exact List.not_mem_nil _ hP)]
    rw [readWord_none g P (r, c) hP hnb]

/-- Witness for C9 at a concrete out-of-bounds coordinate. -/
theorem claim_C9_witness :
    (WordGrid.new 3 [] 0).get_letter 5 0 = none ∧
    (WordGrid.new 3 [] 0).is_word_at_positions [(5, 0)] = false :=
  claim_C9 (WordGrid.new 3 [] 0) 5 0 [(5, 0)] (by decide) (by decide)

/-! The denylist rejection of a word whose own letters spell an unwanted
pattern: the directional run starting at the word's anchor reads the
word itself back off the temporary grid. -/

lemma extractRun_word (gr : Int → Int → Char) (size : Int) :
    ∀ (w : List Char) (fuel : Nat) (r c dr dc : Int),
      (∀ (i : Nat) (hi : i < w.length),
        inB size (r + (i : Int) * dr) (c + (i : Int) * dc) ∧
        gr (r + (i : Int) * dr) (c + (i : Int) * dc) = w.get ⟨i, hi⟩ ∧
        w.get ⟨i, hi⟩ ≠ emptyCell) →
      w.length ≤ fuel →
      (fuel = w.length ∨
        ¬(inB size (r + (w.length : Int) * dr) (c + (w.length : Int) * dc) ∧
          gr (r + (w.length : Int) * dr) (c + (w.length : Int) * dc)
            ≠ emptyCell)) →
      extractRun gr size fuel r c dr dc = w := by
  intro w
  induction w with
  | nil =>
    intro fuel r c dr dc h hf hstop
    cases fuel with
    | zero => rfl
    | succ f =>
      rcases hstop with hstop | hstop
      · exact absurd hstop (by simp)
      · simp only [List.length_nil, Nat.cast_zero, zero_mul, add_zero] at hstop
        rw [extractRun, if_neg hstop]
  | cons ch rest ih =>
    intro fuel r c dr dc h hf hstop
    cases fuel with
    | zero =>
      simp only [List.length_cons] at hf
      omega
    | succ f =>
      have h0 := h 0 (by simp)
      simp only [Nat.cast_zero, zero_mul, add_zero] at h0
      rw [extractRun, if_pos ⟨h0.1, by rw [h0.2.1]; exact h0.2.2⟩]
      congr 1
      · exact h0.2.1
      · apply ih f (r + dr) (c + dc) dr dc
        · intro i hi
          have hs := h (i + 1) (by
            simp only [List.length_cons]
            omega)
          have hx : r + (((i : Nat) + 1 : Nat) : Int) * dr =
              (r + dr) + (i : Int) * dr := by
            push_cast
            ring
          have hy : c + (((i : Nat) + 1 : Nat) : Int) * dc =
              (c + dc) + (i : Int) * dc := by
            push_cast
            ring
          rw [hx, hy] at hs
          exact hs
        · simp only [List.length_cons] at hf
          omega
        · rcases hstop with hstop | hstop
          · left
            simp only [List.length_cons] at hstop
            omega
          · right
            have hx : r + (((ch :: rest).length : Nat) : Int) * dr =
                (r + dr) + ((rest.length : Nat) : Int) * dr := by
              simp only [List.length_cons]
              push_cast
              ring
            have hy : c + (((ch :: rest).length : Nat) : Int) * dc =
                (c + dc) + ((rest.length : Nat) : Int) * dc := by
              simp only [List.length_cons]
              push_cast
              ring
            rw [hx, hy] at hstop
            exact hstop

lemma word_len_le_size (size sr sc : Int) (d : Pos) (hd : d ∈ directions)
    (len : Nat) (hlen : 1 ≤ len)
    (hsr1 : 0 ≤ sr) (hsr2 : sr < size) (hsc1 : 0 ≤ sc) (hsc2 : sc < size)
    (hb1 : 0 ≤ sr + ((len : Int) - 1) * d.1)
    (hb2 : sr + ((len : Int) - 1) * d.1 < size)
    (hb3 : 0 ≤ sc + ((len : Int) - 1) * d.2)
    (hb4 : sc + ((len : Int) - 1) * d.2 < size) :
    (len : Int) ≤ size := by
  fin_cases hd <;>
    simp only [mul_one, mul_zero, mul_neg_one, neg_sub] at hb1 hb2 hb3 hb4 <;>
    omega

lemma unwanted_len3 (w : List Char)
    (hunw : rkDefault.contains_unwanted_pattern w = true) : 3 ≤ w.length := by
  unfold RabinKarp.contains_unwanted_pattern at hunw
  rw [List.any_eq_true] at hunw
  obtain ⟨pat, hpat, hc⟩ := hunw
  unfold RabinKarp.contains_pattern at hc
  rw [decide_eq_true_eq] at hc
  obtain ⟨j, hj⟩ := List.exists_mem_of_length_pos hc
  rw [search_mem_iff rkDefault (by decide)] at hj
  have hplen : pat.length = 3 := by
    have hall : ∀ p ∈ unwantedPatterns, p.length = 3 := by decide
    exact hall pat hpat
  have hle := hj.2.1
  rw [List.length_map] at hle
  omega

lemma creates_overlap_eq (g : WordGrid) (w : List Char) (sr sc : Int)
    (d : Pos) :
    g.creates_unwanted_overlap w sr sc d =
      directions.any (fun cd => g.check_direction_for_unwanted_words
        (writeWord g.grid w sr sc d.1 d.2) cd) := rfl

lemma check_direction_eq (g : WordGrid) (grid : Int → Int → Char) (d : Pos) :
    g.check_direction_for_unwanted_words grid d =
      (List.range g.size.toNat).any fun sr =>
        (List.range g.size.toNat).any fun sc =>
          if (extractRun grid g.size g.size.toNat (sr : Int) (sc : Int)
              d.1 d.2).length < 3 ∨
            extractRun grid g.size g.size.toNat (sr : Int) (sc : Int) d.1 d.2
              ∈ g.placed_words
          then false
          else g.rabin_karp.contains_unwanted_pattern
            (extractRun grid g.size g.size.toNat (sr : Int) (sc : Int)
              d.1 d.2) := rfl

lemma c10_overlap (g : WordGrid) (w : List Char) (sr sc : Int) (d : Pos)
    (hd : d ∈ directions)
    (hblank : ∀ r2 c2 : Int, g.grid r2 c2 = emptyCell)
    (hplaced : g.placed_words = [])
    (hrk : g.rabin_karp = rkDefault)
    (hup : ∀ ch ∈ w, isUpperCh ch)
    (hunw : rkDefault.contains_unwanted_pattern w = true)
    (hsr1 : 0 ≤ sr) (hsr2 : sr < g.size) (hsc1 : 0 ≤ sc) (hsc2 : sc < g.size)
    (hb1 : 0 ≤ sr + ((w.length : Int) - 1) * d.1)
    (hb2 : sr + ((w.length : Int) - 1) * d.1 < g.size)
    (hb3 : 0 ≤ sc + ((w.length : Int) - 1) * d.2)
    (hb4 : sc + ((w.length : Int) - 1) * d.2 < g.size) :
    g.creates_unwanted_overlap w sr sc d = true := by
  have hlen3 := unwanted_len3 w hunw
  have hdnz := dir_ne_zero d hd
  have hdb := dir_bounds d hd
  have hlenle := word_len_le_size g.size sr sc d hd w.length (by omega)
    hsr1 hsr2 hsc1 hsc2 hb1 hb2 hb3 hb4
  have hseg : ∀ i : Nat, i < w.length →
      inB g.size (sr + (i : Int) * d.1) (sc + (i : Int) * d.2) := by
    intro i hi
    have hi2 : (i : Int) ≤ (w.length : Int) - 1 := by omega
    have hr := seg1 g.size sr ((w.length : Int) - 1) d.1 hdb.1 hsr1 hsr2
      hb1 hb2 (i : Int) (by positivity) hi2
    have hc2 := seg1 g.size sc ((w.length : Int) - 1) d.2 hdb.2 hsc1 hsc2
      hb3 hb4 (i : Int) (by positivity) hi2
    unfold inB
    exact ⟨hr.1, hr.2, hc2.1, hc2.2⟩
  have hrun : extractRun (writeWord g.grid w sr sc d.1 d.2) g.size
      g.size.toNat sr sc d.1 d.2 = w := by
    apply extractRun_word
    · intro i hi
      refine ⟨hseg i hi, writeWord_read w g.grid sr sc d.1 d.2 hdnz i hi, ?_⟩
      exact upper_ne_empty _ (hup _ (List.get_mem w i hi))
    · omega
    · by_cases hfe : g.size.toNat = w.length
      · left
        exact hfe
      · right
        intro hcon
        have hframe : writeWord g.grid w sr sc d.1 d.2
            (sr + (w.length : Int) * d.1) (sc + (w.length : Int) * d.2) =
            g.grid (sr + (w.length : Int) * d.1)
              (sc + (w.length : Int) * d.2) := by
          apply writeWord_frame
          intro i hi hc
          have h1 : ((w.length : Int) - (i : Int)) * d.1 = 0 := by
            linear_combination hc.1
          have h2 : ((w.length : Int) - (i : Int)) * d.2 = 0 := by
            linear_combination hc.2
          have hne : (w.length : Int) - (i : Int) ≠ 0 := by omega
          rcases hdnz with hz | hz
          · rcases mul_eq_zero.mp h1 with hx | hx
            · exact hne hx
            · exact hz hx
          · rcases mul_eq_zero.mp h2 with hx | hx
            · exact hne hx
            · exact hz hx
        exact hcon.2 (by rw [hframe, hblank])
  rw [creates_overlap_eq, List.any_eq_true]
  refine ⟨d, hd, ?_⟩
  rw [check_direction_eq, List.any_eq_true]
  refine ⟨sr.toNat, List.mem_range.mpr (by omega), ?_⟩
  rw [List.any_eq_true]
  refine ⟨sc.toNat, List.mem_range.mpr (by omega), ?_⟩
  show (if (extractRun (writeWord g.grid w sr sc d.1 d.2) g.size g.size.toNat
        ((sr.toNat : Nat) : Int) ((sc.toNat : Nat) : Int) d.1 d.2).length < 3 ∨
      extractRun (writeWord g.grid w sr sc d.1 d.2) g.size g.size.toNat
        ((sr.toNat : Nat) : Int) ((sc.toNat : Nat) : Int) d.1 d.2
        ∈ g.placed_words
    then false
    else g.rabin_karp.contains_unwanted_pattern
      (extractRun (writeWord g.grid w sr sc d.1 d.2) g.size g.size.toNat
        ((sr.toNat : Nat) : Int) ((sc.toNat : Nat) : Int) d.1 d.2)) = true
  rw [Int.toNat_of_nonneg hsr1, Int.toNat_of_nonneg hsc1, hrun]
  rw [if_neg (by
    rintro (hx | hx)
    · omega
    · rw [hplaced] at hx
      exact List.not_mem_nil w hx)]
  rw [hrk]
  exact hunw

lemma c10_can_place (g : WordGrid) (w : List Char)
    (hblank : ∀ r2 c2 : Int, g.grid r2 c2 = emptyCell)
    (hplaced : g.placed_words = [])
    (hrk : g.rabin_karp = rkDefault)
    (hup : ∀ ch ∈ w, isUpperCh ch)
    (hunw : rkDefault.contains_unwanted_pattern w = true)
    (r c : Int) (d : Pos) (hd : d ∈ directions)
    (hr1 : 0 ≤ r) (hr2 : r < g.size) (hc1 : 0 ≤ c) (hc2 : c < g.size) :
    g.can_place_word w r c d = false := by
  rw [can_place_word_eq]
  by_cases hb : r + ((w.length : Int) - 1) * d.1 < 0 ∨
      g.size ≤ r + ((w.length : Int) - 1) * d.1 ∨
      c + ((w.length : Int) - 1) * d.2 < 0 ∨
      g.size ≤ c + ((w.length : Int) - 1) * d.2
  · rw [if_pos hb]
  · rw [if_neg hb]
    push_neg at hb
    have hov := c10_overlap g w r c d hd hblank hplaced hrk hup hunw
      hr1 hr2 hc1 hc2 hb.1 hb.2.1 hb.2.2.1 hb.2.2.2
    by_cases hcf : (List.range w.length).any (fun i =>
        decide (g.grid (r + (i : Int) * d.1) (c + (i : Int) * d.2) ≠ emptyCell ∧
          g.grid (r + (i : Int) * d.1) (c + (i : Int) * d.2) ≠
            w.getD i emptyCell)) = true
    · rw [if_pos hcf]
    · rw [if_neg hcf, if_pos hov]

lemma c10_attemptLoop (g : WordGrid) (w : List Char) (ρ : Nat → Nat)
    (hsz : 1 ≤ g.size)
    (hblank : ∀ r2 c2 : Int, g.grid r2 c2 = emptyCell)
    (hplaced : g.placed_words = [])
    (hrk : g.rabin_karp = rkDefault)
    (hup : ∀ ch ∈ w, isUpperCh ch)
    (hunw : rkDefault.contains_unwanted_pattern w = true) :
    ∀ (n k : Nat), ∃ k2, g.attemptLoop w ρ k n = .ok (g, false, k2) := by
  intro n
  induction n with
  | zero =>
    intro k
    exact ⟨k, by rw [WordGrid.attemptLoop]⟩
  | succ n ih =>
    intro k
    rw [WordGrid.attemptLoop]
    cases hr1 : randint ρ k 0 (g.size - 1) with
    | error e =>
      exfalso
      unfold randint at hr1
      rw [if_pos (by omega)] at hr1
      exact Except.noConfusion hr1
    | ok row =>
      simp only [hr1]
      cases hr2 : randint ρ (k + 1) 0 (g.size - 1) with
      | error e =>
        exfalso
        unfold randint at hr2
        rw [if_pos (by omega)] at hr2
        exact Except.noConfusion hr2
      | ok col =>
        simp only [hr2]
        obtain ⟨_, hrow1, hrow2⟩ := randint_ok ρ k 0 (g.size - 1) row hr1
        obtain ⟨_, hcol1, hcol2⟩ := randint_ok ρ (k + 1) 0 (g.size - 1) col hr2
        have hcp := c10_can_place g w hblank hplaced hrk hup hunw row col
          (directions.getD (ρ (k + 2) % directions.length) (0, 1))
          (dir_getD_mem _) hrow1 (by omega) hcol1 (by omega)
        rw [if_neg (by rw [hcp]; exact Bool.false_ne_true)]
        exact ih (k + 3)

lemma attemptLoop_placed (word : List Char) (ρ : Nat → Nat) :
    ∀ (n k : Nat) (g : WordGrid) (res : WordGrid × Bool × Nat),
      g.attemptLoop word ρ k n = .ok res →
      res.1.placed_words = g.placed_words := by
  intro n
  induction n with
  | zero =>
    intro k g res h
    rw [WordGrid.attemptLoop] at h
    have hres : (g, false, k) = res := by injection h
    rw [← hres]
  | succ n ih =>
    intro k g res h
    rw [WordGrid.attemptLoop] at h
    cases hr1 : randint ρ k 0 (g.size - 1) with
    | error e =>
      simp only [hr1] at h
      exact Except.noConfusion h
    | ok row =>
      simp only [hr1] at h
      cases hr2 : randint ρ (k + 1) 0 (g.size - 1) with
      | error e =>
        simp only [hr2] at h
        exact Except.noConfusion h
      | ok col =>
        simp only [hr2] at h
        by_cases hcan : g.can_place_word word row col
            (directions.getD (ρ (k + 2) % directions.length) (0, 1)) = true
        · rw [if_pos hcan] at h
          have hres : (g.place_word word row col
              (directions.getD (ρ (k + 2) % directions.length) (0, 1)),
              true, k + 3) = res := by
            injection h
          rw [← hres]
          rfl
        · rw [if_neg hcan] at h
          exact ih (k + 3) g res h

lemma placeWordsLoop_origin (ρ : Nat → Nat) :
    ∀ (ws : List (List Char)) (g : WordGrid) (k : Nat)
      (res : WordGrid × Nat), g.placeWordsLoop ρ ws k = .ok res →
      ∀ w2 ∈ res.1.placed_words, w2 ∈ g.placed_words ∨
        ∃ sw ∈ ws, w2 = sw.map Char.toUpper := by
  intro ws
  induction ws with
  | nil =>
    intro g k res h
    rw [WordGrid.placeWordsLoop] at h
    have hres : (g, k) = res := by injection h
    rw [← hres]
    exact fun w2 hw2 => Or.inl hw2
  | cons w rest ih =>
    intro g k res h
    rw [WordGrid.placeWordsLoop] at h
    cases hat : g.attemptLoop (w.map Char.toUpper) ρ k maxAttempts with
    | error e =>
      simp only [hat] at h
      exact Except.noConfusion h
    | ok trip =>
      obtain ⟨g2, placed, k2⟩ := trip
      simp only [hat] at h
      have hplw : g2.placed_words = g.placed_words :=
        attemptLoop_placed (w.map Char.toUpper) ρ maxAttempts k g
          (g2, placed, k2) hat
      by_cases hpl : placed = true
      · rw [if_pos hpl] at h
        intro w2 hw2
        rcases ih { g2 with
            placed_words := g2.placed_words ++ [w.map Char.toUpper] } k2 res h
            w2 hw2 with hx | hx
        · have hx2 : w2 ∈ g2.placed_words ++ [w.map Char.toUpper] := hx
          rcases List.mem_append.mp hx2 with hx3 | hx3
          · left
            rw [← hplw]
            exact hx3
          · right
            exact ⟨w, List.mem_cons_self w rest, by simpa using hx3⟩
        · obtain ⟨sw, hsw, he⟩ := hx
          exact Or.inr ⟨sw, List.mem_cons_of_mem w hsw, he⟩
      · rw [if_neg hpl] at h
        intro w2 hw2
        rcases ih g2 k2 res h w2 hw2 with hx | hx
        · left
          rw [← hplw]
          exact hx
        · obtain ⟨sw, hsw, he⟩ := hx
          exact Or.inr ⟨sw, List.mem_cons_of_mem w hsw, he⟩

lemma unwanted_ne_nil : ∀ p ∈ unwantedPatterns, p ≠ [] := by decide

lemma unwanted_of_substring (w : List Char)
    (hletters : ∀ ch ∈ w, isLetterCh ch)
    (hpat : ∃ pat ∈ unwantedPatterns, ∃ i : Nat,
      i + pat.length ≤ w.length ∧
      ((w.map Char.toUpper).drop i).take pat.length = pat) :
    rkDefault.contains_unwanted_pattern (w.map Char.toUpper) = true := by
  obtain ⟨pat, hmem, i, hle, heq⟩ := hpat
  have hwu : ∀ ch ∈ w.map Char.toUpper, isUpperCh ch :=
    map_toUpper_letter w hletters
  have hfix : (w.map Char.toUpper).map Char.toUpper = w.map Char.toUpper :=
    map_toUpper_upper _ hwu
  unfold RabinKarp.contains_unwanted_pattern
  rw [List.any_eq_true]
  refine ⟨pat, hmem, ?_⟩
  unfold RabinKarp.contains_pattern
  rw [hfix]
  have hmemS : i ∈ rkDefault.search pat (w.map Char.toUpper) :=
    (search_mem_iff rkDefault (by decide) pat (w.map Char.toUpper) i).mpr
      ⟨unwanted_ne_nil pat hmem, by rw [List.length_map]; exact hle, heq⟩
  simp only [decide_eq_true_eq]
  exact List.length_pos.mpr (List.ne_nil_of_mem hmemS)

/-- C10: a candidate word whose uppercase form contains one of the
denylisted patterns THE AND FOR ARE BUT NOT YOU ALL as a contiguous
substring can never be placed on the freshly initialised grid — every
in-bounds placement attempt in every direction is rejected by
can_place_word (the word's own letter run on the temporary grid triggers
contains_unwanted_pattern, and the word is not yet in placed_words when
that check runs) — and consequently, when such a word is processed first
by the placement loop, its uppercase form is absent from get_word_list
of the resulting grid (it is silently dropped). -/
theorem claim_C10 (size wc : Int) (wl : List (List Char)) (ρ : Nat → Nat)
    (w : List Char) (rest : List (List Char)) (k : Nat)
    (hsz : 1 ≤ size)
    (hletters : ∀ ch ∈ w, isLetterCh ch)
    (hpat : ∃ pat ∈ unwantedPatterns, ∃ i : Nat,
      i + pat.length ≤ w.length ∧
      ((w.map Char.toUpper).drop i).take pat.length = pat)
    (hrest : w.map Char.toUpper ∉ rest.map (fun sw => sw.map Char.toUpper)) :
    (∀ r c : Int, 0 ≤ r → r < size → 0 ≤ c → c < size →
      ∀ d ∈ directions,
        ((WordGrid.new size wl wc).init_grid).can_place_word
          (w.map Char.toUpper) r c d = false) ∧
    (∀ res : WordGrid × Nat,
      ((WordGrid.new size wl wc).init_grid).placeWordsLoop ρ (w :: rest) k =
        .ok res →
      w.map Char.toUpper ∉ res.1.get_word_list) := by
  have hwu : ∀ ch ∈ w.map Char.toUpper, isUpperCh ch :=
    map_toUpper_letter w hletters
  have hunw : rkDefault.contains_unwanted_pattern (w.map Char.toUpper) = true :=
    unwanted_of_substring w hletters hpat
  constructor
  · intro r c hr1 hr2 hc1 hc2 d hd
    exact c10_can_place ((WordGrid.new size wl wc).init_grid)
      (w.map Char.toUpper) (fun _ _ => rfl) rfl rfl hwu hunw r c d hd
      hr1 hr2 hc1 hc2
  · intro res h
    rw [WordGrid.placeWordsLoop] at h
    obtain ⟨k2, hat⟩ := c10_attemptLoop ((WordGrid.new size wl wc).init_grid)
      (w.map Char.toUpper) ρ hsz (fun _ _ => rfl) rfl rfl hwu hunw
      maxAttempts k
    simp only [hat] at h
    rw [if_neg Bool.false_ne_true] at h
    intro hmem
    rcases placeWordsLoop_origin ρ rest ((WordGrid.new size wl wc).init_grid)
        k2 res h (w.map Char.toUpper) hmem with hx | hx
    · exact List.not_mem_nil _ hx
    · obtain ⟨sw, hsw, he⟩ := hx
      exact hrest (by rw [he]; exact List.mem_map_of_mem _ hsw)

/-- Witness for C10 at size 5 with the word FOREST (contains FOR). -/
theorem claim_C10_witness :
    (∀ r c : Int, 0 ≤ r → r < 5 → 0 ≤ c → c < 5 →
      ∀ d ∈ directions,
        ((WordGrid.new 5 [] 3).init_grid).can_place_word
          (['F','O','R','E','S','T'].map Char.toUpper) r c d = false) ∧
    (∀ res : WordGrid × Nat,
      ((WordGrid.new 5 [] 3).init_grid).placeWordsLoop (fun _ => 0)
        [['F','O','R','E','S','T']] 0 = .ok res →
      ['F','O','R','E','S','T'].map Char.toUpper ∉ res.1.get_word_list) :=
  claim_C10 5 3 [] (fun _ => 0) ['F','O','R','E','S','T'] [] 0
    (by decide) (by decide)
    ⟨['F','O','R'], by decide, 0, by decide, by decide⟩
    (by decide)

/-! Error behaviour of the generation pipeline: the only fatal
configurations.  random.sample raises only for a negative (or oversized)
request, and random.randint raises only on an empty range; no other
validation exists in __init__, generate, or _place_words. -/

lemma sampleAux_cons (ρ : Nat → Nat) (k : Nat) (pool : List (List Char))
    (n : Nat) :
    sampleAux ρ k pool (n + 1) =
      pool.getD (ρ k % pool.length) [] ::
        sampleAux ρ (k + 1) (pool.eraseIdx (ρ k % pool.length)) n := rfl

lemma place_words_err_neg (g : WordGrid) (ρ : Nat → Nat) (k : Nat)
    (hwc : g.word_count < 0) :
    g.place_words ρ k = .error .sampleSize := by
  unfold WordGrid.place_words
  have hs : sample ρ k g.word_list
      (min g.word_count ((g.word_list.length : Nat) : Int)) =
      .error .sampleSize := by
    unfold sample
    rw [if_pos (Or.inl (by omega))]
  rw [hs]

lemma place_words_empty (g : WordGrid) (ρ : Nat → Nat) (k : Nat)
    (hwl : g.word_list = []) (hwc : 0 ≤ g.word_count) :
    g.place_words ρ k = .ok (g, k) := by
  unfold WordGrid.place_words
  simp only [hwl, List.length_nil, Nat.cast_zero]
  have hm : min g.word_count (0 : Int) = 0 := by omega
  rw [hm]
  have hs : sample ρ k ([] : List (List Char)) 0 = .ok ([], k) := by
    unfold sample
    rw [if_neg (by omega)]
    rfl
  rw [hs]
  rfl

lemma placeWordsLoop_err (g : WordGrid) (ρ : Nat → Nat) (hsz : g.size ≤ 0)
    (w : List Char) (rest : List (List Char)) (k : Nat) :
    g.placeWordsLoop ρ (w :: rest) k = .error .emptyRange := by
  rw [WordGrid.placeWordsLoop]
  have hat : g.attemptLoop (w.map Char.toUpper) ρ k maxAttempts =
      .error .emptyRange := by
    have hm : maxAttempts = 99 + 1 := rfl
    rw [hm, WordGrid.attemptLoop]
    have hr : randint ρ k 0 (g.size - 1) = .error .emptyRange := by
      unfold randint
      rw [if_neg (by omega)]
    rw [hr]
  simp only [hat]

lemma place_words_err_range (g : WordGrid) (ρ : Nat → Nat) (k : Nat)
    (hsz : g.size ≤ 0) (hwl : g.word_list ≠ []) (hwc : 1 ≤ g.word_count) :
    g.place_words ρ k = .error .emptyRange := by
  unfold WordGrid.place_words
  have hlen : 0 < g.word_list.length := List.length_pos.mpr hwl
  have hs : sample ρ k g.word_list
      (min g.word_count ((g.word_list.length : Nat) : Int)) =
      .ok (sampleAux ρ k g.word_list
            (min g.word_count ((g.word_list.length : Nat) : Int)).toNat,
          k + (min g.word_count ((g.word_list.length : Nat) : Int)).toNat) := by
    unfold sample
    rw [if_neg (by omega)]
  rw [hs]
  show g.placeWordsLoop ρ
      (sampleAux ρ k g.word_list
        (min g.word_count ((g.word_list.length : Nat) : Int)).toNat)
      (k + (min g.word_count ((g.word_list.length : Nat) : Int)).toNat) =
    .error .emptyRange
  have hnt : (min g.word_count ((g.word_list.length : Nat) : Int)).toNat =
      ((min g.word_count ((g.word_list.length : Nat) : Int)).toNat - 1) + 1 := by
    omega
  rw [hnt, sampleAux_cons]
  exact placeWordsLoop_err g ρ hsz _ _ _

/-- C8 counterexample: generating with an empty word source completes
successfully (no error is raised) and simply yields a grid with an empty
word list, contradicting the claim that an empty word source is fatal at
construction or generation time. -/
theorem claim_C8_counterexample :
    ∃ g2 : WordGrid, (WordGrid.new 5 [] 3).generate rho0 = Except.ok g2 ∧
      g2.get_word_list = [] :=
  ⟨_, rfl, rfl⟩

/-- attemptLoop leaves the grid's size unchanged on every successful
return (the only grid change, place_word, touches grid and
word_positions only). -/
lemma attemptLoop_size (word : List Char) (ρ : Nat → Nat) :
    ∀ (n k : Nat) (g : WordGrid) (res : WordGrid × Bool × Nat),
      g.attemptLoop word ρ k n = .ok res → res.1.size = g.size := by
  intro n
  induction n with
  | zero =>
    intro k g res h
    rw [WordGrid.attemptLoop] at h
    have hres : (g, false, k) = res := by injection h
    rw [← hres]
  | succ n ih =>
    intro k g res h
    rw [WordGrid.attemptLoop] at h
    cases hr1 : randint ρ k 0 (g.size - 1) with
    | error e =>
      simp only [hr1] at h
      exact Except.noConfusion h
    | ok row =>
      simp only [hr1] at h
      cases hr2 : randint ρ (k + 1) 0 (g.size - 1) with
      | error e =>
        simp only [hr2] at h
        exact Except.noConfusion h
      | ok col =>
        simp only [hr2] at h
        by_cases hcan : g.can_place_word word row col
            (directions.getD (ρ (k + 2) % directions.length) (0, 1)) = true
        · rw [if_pos hcan] at h
          have hres : (g.place_word word row col
              (directions.getD (ρ (k + 2) % directions.length) (0, 1)),
              true, k + 3) = res := by
            injection h
          rw [← hres]
          rfl
        · rw [if_neg hcan] at h
          exact ih (k + 3) g res h

/-- On a grid of positive size the attempt loop never raises: every
random.randint call has a non-empty range, and the loop returns ok
whether or not a placement was found. -/
lemma attemptLoop_isOk (g : WordGrid) (word : List Char) (ρ : Nat → Nat)
    (hsz : 1 ≤ g.size) :
    ∀ (n k : Nat), ∃ res, g.attemptLoop word ρ k n = .ok res := by
  intro n
  induction n with
  | zero =>
    intro k
    exact ⟨(g, false, k), by rw [WordGrid.attemptLoop]⟩
  | succ n ih =>
    intro k
    rw [WordGrid.attemptLoop]
    cases hr1 : randint ρ k 0 (g.size - 1) with
    | error e =>
      exfalso
      unfold randint at hr1
      rw [if_pos (by omega)] at hr1
      exact Except.noConfusion hr1
    | ok row =>
      simp only [hr1]
      cases hr2 : randint ρ (k + 1) 0 (g.size - 1) with
      | error e =>
        exfalso
        unfold randint at hr2
        rw [if_pos (by omega)] at hr2
        exact Except.noConfusion hr2
      | ok col =>
        simp only [hr2]
        by_cases hcan : g.can_place_word word row col
            (directions.getD (ρ (k + 2) % directions.length) (0, 1)) = true
        · rw [if_pos hcan]
          exact ⟨_, rfl⟩
        · rw [if_neg hcan]
          exact ih (k + 3)

/-- On a grid of positive size the word-placement loop never raises,
whatever the selected word list. -/
lemma placeWordsLoop_isOk (ρ : Nat → Nat) :
    ∀ (ws : List (List Char)) (g : WordGrid) (k : Nat), 1 ≤ g.size →
      ∃ res, g.placeWordsLoop ρ ws k = .ok res := by
  intro ws
  induction ws with
  | nil =>
    intro g k _
    exact ⟨(g, k), by rw [WordGrid.placeWordsLoop]⟩
  | cons w rest ih =>
    intro g k hsz
    rw [WordGrid.placeWordsLoop]
    obtain ⟨⟨g2, placed, k2⟩, hat⟩ :=
      attemptLoop_isOk g (w.map Char.toUpper) ρ hsz maxAttempts k
    simp only [hat]
    have hsz2 : 1 ≤ g2.size := by
      rw [attemptLoop_size (w.map Char.toUpper) ρ maxAttempts k g
        (g2, placed, k2) hat]
      exact hsz
    by_cases hpl : placed = true
    · rw [if_pos hpl]
      exact ih { g2 with placed_words := g2.placed_words ++ [w.map Char.toUpper] }
        k2 hsz2
    · rw [if_neg hpl]
      exact ih g2 k2 hsz2

/-- _place_words succeeds whenever the sample request is non-negative
and either the grid size is positive or the selection is empty (a zero
word_count or an empty word source). -/
lemma place_words_isOk (g : WordGrid) (ρ : Nat → Nat) (k : Nat)
    (hwc : 0 ≤ g.word_count)
    (h : 1 ≤ g.size ∨ g.word_count = 0 ∨ g.word_list = []) :
    ∃ res, g.place_words ρ k = .ok res := by
  have hs : sample ρ k g.word_list
      (min g.word_count ((g.word_list.length : Nat) : Int)) =
      .ok (sampleAux ρ k g.word_list
            (min g.word_count ((g.word_list.length : Nat) : Int)).toNat,
          k + (min g.word_count ((g.word_list.length : Nat) : Int)).toNat) := by
    unfold sample
    rw [if_neg (by omega)]
  rcases h with hsz | h0
  · obtain ⟨res, hres⟩ := placeWordsLoop_isOk ρ
      (sampleAux ρ k g.word_list
        (min g.word_count ((g.word_list.length : Nat) : Int)).toNat)
      g (k + (min g.word_count ((g.word_list.length : Nat) : Int)).toNat) hsz
    refine ⟨res, ?_⟩
    unfold WordGrid.place_words
    rw [hs]
    exact hres
  · have hm : (min g.word_count ((g.word_list.length : Nat) : Int)).toNat = 0 := by
      rcases h0 with h0 | h0
      · rw [h0]
        omega
      · rw [h0]
        simp only [List.length_nil, Nat.cast_zero]
        omega
    refine ⟨(g, k + 0), ?_⟩
    unfold WordGrid.place_words
    rw [hs, hm]
    rfl

/-- C8 (amended): no validation is performed at construction time, and
generation errors in EXACTLY two configurations: a negative word_count
(random.sample raises) or a non-positive size combined with a non-empty
word source and positive word_count (random.randint raises on the
empty range); in every other configuration generate completes
successfully.  In particular an empty word source with non-negative
word_count is NOT fatal: generation completes successfully with an
empty word list. -/
theorem claim_C8 (size wc : Int) (wl : List (List Char)) (ρ : Nat → Nat) :
    ((∃ e, (WordGrid.new size wl wc).generate ρ = .error e) ↔
      (wc < 0 ∨ (size ≤ 0 ∧ wl ≠ [] ∧ 1 ≤ wc))) ∧
    (wc < 0 →
      (WordGrid.new size wl wc).generate ρ = .error .sampleSize) ∧
    (size ≤ 0 → wl ≠ [] → 1 ≤ wc →
      (WordGrid.new size wl wc).generate ρ = .error .emptyRange) ∧
    (wl = [] → 0 ≤ wc →
      ∃ g2, (WordGrid.new size wl wc).generate ρ = .ok g2 ∧
        g2.get_word_list = []) := by
  have herr1 : wc < 0 →
      (WordGrid.new size wl wc).generate ρ = .error .sampleSize := by
    intro hwc
    have hpw := place_words_err_neg ((WordGrid.new size wl wc).init_grid) ρ 0 hwc
    unfold WordGrid.generate
    rw [hpw]
  have herr2 : size ≤ 0 → wl ≠ [] → 1 ≤ wc →
      (WordGrid.new size wl wc).generate ρ = .error .emptyRange := by
    intro hsize hwl hwc
    have hpw := place_words_err_range ((WordGrid.new size wl wc).init_grid) ρ 0
      hsize hwl hwc
    unfold WordGrid.generate
    rw [hpw]
  refine ⟨⟨?_, ?_⟩, herr1, herr2, ?_⟩
  · rintro ⟨e, he⟩
    by_contra hnot
    push_neg at hnot
    obtain ⟨hwc0, hrest⟩ := hnot
    have hcase : 1 ≤ size ∨ wc = 0 ∨ wl = [] := by
      by_cases hsz : 1 ≤ size
      · exact Or.inl hsz
      · by_cases hwl : wl = []
        · exact Or.inr (Or.inr hwl)
        · have hlt := hrest (by omega) hwl
          exact Or.inr (Or.inl (by omega))
    obtain ⟨⟨g2, k2⟩, hpw⟩ :=
      place_words_isOk ((WordGrid.new size wl wc).init_grid) ρ 0
        hwc0 hcase
    unfold WordGrid.generate at he
    simp only [hpw] at he
    exact Except.noConfusion he
  · rintro (hwc | ⟨hsize, hwl, hwc⟩)
    · exact ⟨.sampleSize, herr1 hwc⟩
    · exact ⟨.emptyRange, herr2 hsize hwl hwc⟩
  · intro hwl hwc
    subst hwl
    have hpw := place_words_empty ((WordGrid.new size [] wc).init_grid) ρ 0 rfl hwc
    refine ⟨(((WordGrid.new size [] wc).init_grid).fill_empty_cells ρ 0).1, ?_, rfl⟩
    unfold WordGrid.generate
    rw [hpw]

/-- Witness for the amended C8 with every hypothesis discharged at
concrete configurations: a well-formed configuration does not error, a
negative word_count and a non-positive size with words requested both
error, and an empty word source completes with an empty word list. -/
theorem claim_C8_witness :
    (¬ ∃ e, (WordGrid.new 3 [['C','A','T']] 1).generate rho0 = .error e) ∧
    (WordGrid.new 5 [['C','A','T']] (-1)).generate rho0 =
      .error .sampleSize ∧
    (WordGrid.new 0 [['C','A','T']] 1).generate rho0 =
      .error .emptyRange ∧
    (∃ g2, (WordGrid.new 4 [] 2).generate rho0 = .ok g2 ∧
      g2.get_word_list = []) :=
  ⟨fun h => absurd ((claim_C8 3 1 [['C','A','T']] rho0).1.mp h) (by decide),
   (claim_C8 5 (-1) [['C','A','T']] rho0).2.1 (by decide),
   (claim_C8 0 1 [['C','A','T']] rho0).2.2.1 (by decide) (by decide) (by decide),
   (claim_C8 4 2 [] rho0).2.2.2 rfl (by decide)⟩
